import Mathlib

/-!
Verification of the `brainfuck` repository (interpreter, bytecode compiler,
virtual machine and JIT emitters) against its natural-language specification.

The Rust sources are embedded shallowly:

* bytes of the source program are `Nat` values (`b'>' = 62`, …);
* `Vec<Instruction>` becomes `List Instruction`;
* the 30000-cell `u8` tape becomes a total function `Nat → Nat` whose values
  are kept below 256 by performing every update modulo 256 (mirroring `u8`
  wrapping arithmetic);
* `usize` arithmetic that can panic (underflow, out-of-bounds indexing,
  failed `assert!`) is modelled by explicit guards returning `Option`/`fault`;
* the imperative loops of `compile`, `execute` … become tail-recursive
  functions with an explicit fuel counter that is always called with enough
  fuel (the loop index increases strictly, so `code.length - i` bounds the
  number of iterations); this keeps every definition computable by `rfl`.

`reader`/`writer` (`std::io::Read`/`Write`) are modelled as a list of input
bytes and a trace of writer events (`byte b` for `write_all` of one byte,
`flush` for `flush`), which is exactly what the flush-policy claims observe.
-/

namespace BF

/-- The eight opcode bytes from `src/syntax.rs` (`IDENT_INC_DP = b'>'`, …). -/
def IDENT_INC_DP : Nat := 62
def IDENT_DEC_DP : Nat := 60
def IDENT_INC_DATA : Nat := 43
def IDENT_DEC_DATA : Nat := 45
def IDENT_WRITE_BYTE : Nat := 46
def IDENT_READ_BYTE : Nat := 44
def IDENT_JUMP_ZERO : Nat := 91
def IDENT_JUMP_NOT_ZERO : Nat := 93

/-- `IDENTS` from `src/syntax.rs`.  In Rust it is a `HashSet<u8>`; the
compiler iterates over it with `IDENTS.iter()`, whose order is arbitrary.
We fix the insertion order of `syntax.rs`; the compiled result is the same
for every order because each `push_instruction` call only consumes source
characters at the current scan front. -/
def IDENTS : List Nat :=
  [IDENT_INC_DP, IDENT_DEC_DP, IDENT_INC_DATA, IDENT_DEC_DATA,
   IDENT_WRITE_BYTE, IDENT_READ_BYTE, IDENT_JUMP_ZERO, IDENT_JUMP_NOT_ZERO]

/-- `Instruction` from `src/compiler.rs`. -/
inductive Instruction where
  | IncDP (n : Nat)
  | DecDP (n : Nat)
  | IncByteAtDP (n : Nat)
  | DecByteAtDP (n : Nat)
  | WriteByte (n : Nat)
  | ReadByte
  | JumpZero (n : Nat)
  | JumpZeroPlaceholder
  | JumpNotZero (n : Nat)
  | JumpNotZeroPlaceholder
  deriving DecidableEq, Repr

/-- The instruction pushed by `Compiler::push_instruction` for a given
opcode byte and repetition count (the `match instruction` at its end).
The final arm is `unreachable!()` in Rust; every call site passes one of
the eight opcode bytes, so the default value is never produced. -/
def mkInstr (instr args : Nat) : Instruction :=
  if instr = IDENT_INC_DP then .IncDP args
  else if instr = IDENT_DEC_DP then .DecDP args
  else if instr = IDENT_INC_DATA then .IncByteAtDP args
  else if instr = IDENT_DEC_DATA then .DecByteAtDP args
  else if instr = IDENT_WRITE_BYTE then .WriteByte args
  else if instr = IDENT_READ_BYTE then .ReadByte
  else if instr = IDENT_JUMP_ZERO then .JumpZeroPlaceholder
  else if instr = IDENT_JUMP_NOT_ZERO then .JumpNotZeroPlaceholder
  else .ReadByte

/-- The scanning `while` loop of `Compiler::push_instruction`
(`src/compiler.rs` lines 86-104): starting at index `i` with `args`
occurrences counted so far, skip bytes that are neither `instr` nor an
opcode, stop at a different opcode, count and consume repetitions of
`instr`, stopping after one repetition for the two jump opcodes.
Returns the final `(args, i)`.  `fuel` bounds the iterations; the loop
increments `i` by one each round, so `code.length - i` is enough. -/
def pushScanGo (code : List Nat) (instr : Nat) :
    Nat → Nat → Nat → Nat × Nat
  | 0, i, args => (args, i)
  | fuel + 1, i, args =>
    match code.get? i with
    | none => (args, i)
    | some c =>
      if c ≠ instr ∧ c ∉ IDENTS then pushScanGo code instr fuel (i + 1) args
      else if c ≠ instr ∧ c ∈ IDENTS then (args, i)
      else
        if instr = IDENT_JUMP_ZERO ∨ instr = IDENT_JUMP_NOT_ZERO then
          (args + 1, i + 1)
        else pushScanGo code instr fuel (i + 1) (args + 1)

def pushScan (code : List Nat) (instr i args : Nat) : Nat × Nat :=
  pushScanGo code instr (code.length - i) i args

/-- `Compiler::push_instruction`: scan, then push one folded instruction
when at least one occurrence was consumed. -/
def push_instruction (code : List Nat) (instr : Nat)
    (st : Nat × List Instruction) : Nat × List Instruction :=
  let (args, i) := pushScan code instr st.1 0
  (i, if 0 < args then st.2 ++ [mkInstr instr args] else st.2)

/-- The `for ident in IDENTS.iter()` loop inside `Compiler::compile`. -/
def pushAll (code : List Nat) (st : Nat × List Instruction) :
    Nat × List Instruction :=
  IDENTS.foldl (fun st instr => push_instruction code instr st) st

/-- The first `while i < self.code.len()` loop of `Compiler::compile`
(phase 1, folding).  After the `for` loop over `IDENTS`, `i` is bumped
when it did not move.  `i` strictly increases every iteration, so
`code.length + 1` fuel always suffices. -/
def compilePhase1Go (code : List Nat) :
    Nat → Nat → List Instruction → List Instruction
  | 0, _, ins => ins
  | fuel + 1, i, ins =>
    if i < code.length then
      let p := pushAll code (i, ins)
      if i = p.1 then compilePhase1Go code fuel (p.1 + 1) p.2
      else compilePhase1Go code fuel p.1 p.2
    else ins

def compilePhase1 (code : List Nat) : List Instruction :=
  compilePhase1Go code (code.length + 1) 0 []

/-- The inner `loop` of phase 2 of `Compiler::compile`: starting at `j`
with balance `jumps`, count `+1` for each `JumpZeroPlaceholder` and `-1`
for each `JumpNotZeroPlaceholder`, returning the first `j` at which the
balance is zero, or `instructions.len()` when the scan runs off the end.
`j` increases by one per round, so `ins.length - j` fuel suffices. -/
def findMatchGo (ins : List Instruction) : Nat → Nat → Int → Nat
  | 0, j, _ => j
  | fuel + 1, j, jumps =>
    match ins.get? j with
    | none => j
    | some a =>
      let jumps' : Int :=
        match a with
        | .JumpZeroPlaceholder => jumps + 1
        | .JumpNotZeroPlaceholder => jumps - 1
        | _ => jumps
      if jumps' = 0 then j else findMatchGo ins fuel (j + 1) jumps'

def findMatch (ins : List Instruction) (j : Nat) (jumps : Int) : Nat :=
  findMatchGo ins (ins.length - j) j jumps

/-- Phase 2 of `Compiler::compile` (forward link): replace each
`JumpZeroPlaceholder` at `i` by `JumpZero (j - i + 1)` where `j` is the
result of the balance scan. -/
def phase2Go (ins : List Instruction) : Nat → Nat → List Instruction
  | 0, _ => ins
  | fuel + 1, i =>
    match ins.get? i with
    | none => ins
    | some a =>
      if a = .JumpZeroPlaceholder then
        phase2Go (ins.set i (.JumpZero (findMatch ins i 0 - i + 1)))
          fuel (i + 1)
      else phase2Go ins fuel (i + 1)

def phase2 (ins : List Instruction) : List Instruction :=
  phase2Go ins ins.length 0

/-- Phase 3 of `Compiler::compile` (backward link).  At each
`JumpZero offset` at index `i`, Rust computes
`matching_jump = i + offset - 1`, indexes `instructions[matching_jump]`
(a panic when out of bounds), asserts it is a `JumpNotZeroPlaceholder`
(a panic otherwise) and replaces it with
`JumpNotZero (matching_jump - i - 1)` (usize subtraction, a panic when
`matching_jump < i + 1`; likewise `i + offset - 1` underflows when
`i + offset = 0`).  Panics are modelled as `none`. -/
def phase3Go (ins : List Instruction) : Nat → Nat → Option (List Instruction)
  | 0, _ => some ins
  | fuel + 1, i =>
    match ins.get? i with
    | none => some ins
    | some a =>
      match a with
      | .JumpZero offset =>
        if i + offset = 0 then none
        else
          let matching := i + offset - 1
          match ins.get? matching with
          | none => none
          | some b =>
            if b = .JumpNotZeroPlaceholder then
              if matching < i + 1 then none
              else
                phase3Go (ins.set matching (.JumpNotZero (matching - i - 1)))
                  fuel (i + 1)
            else none
      | _ => phase3Go ins fuel (i + 1)

def phase3 (ins : List Instruction) : Option (List Instruction) :=
  phase3Go ins ins.length 0

/-- `Compiler::compile`: phase 1 (folding) followed by the two linking
passes.  `none` models a panic inside phase 3. -/
def compile (code : List Nat) : Option (List Instruction) :=
  phase3 (phase2 (compilePhase1 code))

end BF

namespace BF

/-- `FlushBehavior`.  Modelled from the spec: the enum itself lives in the
crate root, which is not among the provided sources (the provided `lib.rs`
is an older interpreter snapshot); the spec fixes the three values
Disabled / OnWrite / OnEnd, and `interpreter.rs` / `virtual_machine.rs`
compare against `OnWrite` and `OnEnd` exactly as modelled here. -/
inductive FlushBehavior where
  | Disabled
  | OnWrite
  | OnEnd
  deriving DecidableEq, Repr

/-- One event observed by the writer: `write_all` of a single byte, or a
`flush` call. -/
inductive WEvent where
  | byte (b : Nat)
  | flush
  deriving DecidableEq, Repr

/-- Mutable execution state shared by the interpreter and the VM
(`ip`, `data`, `dp`, `reader`, `writer` fields of both Rust structs).
`data d` is the `u8` cell at index `d`; all updates keep values < 256. -/
structure ExecState where
  ip : Nat
  data : Nat → Nat
  dp : Nat
  input : List Nat
  output : List WEvent

/-- Write cell `d` of the tape. -/
def updateCell (f : Nat → Nat) (d v : Nat) : Nat → Nat :=
  fun j => if j = d then v else f j

/-- Result of running a backend: normal completion, an `io::Error`
propagated by `?` (failed `read_exact`), a panic (`assert!` failure or
`usize` underflow / out-of-bounds index), or exhausted fuel. -/
inductive ExecResult where
  | ok (st : ExecState)
  | ioError
  | fault
  | timeout

/-- `DATA_SIZE` from `interpreter.rs` / `virtual_machine.rs`. -/
def DATA_SIZE : Nat := 30000

/-- The forward bracket scan of `Interpreter::execute` (`b'['` arm):
`loop { match code[ip] …; if brackets == 0 break; ip += 1 }`.
Indexing `code[ip]` out of bounds is a panic, modelled as `none`. -/
def scanForwardGo (code : List Nat) : Nat → Nat → Int → Option Nat
  | 0, _, _ => none
  | fuel + 1, j, brackets =>
    match code.get? j with
    | none => none
    | some c =>
      let brackets' : Int :=
        if c = IDENT_JUMP_ZERO then brackets + 1
        else if c = IDENT_JUMP_NOT_ZERO then brackets - 1
        else brackets
      if brackets' = 0 then some j
      else scanForwardGo code fuel (j + 1) brackets'

def scanForward (code : List Nat) (j : Nat) : Option Nat :=
  scanForwardGo code (code.length - j) j 0

/-- The backward bracket scan of `Interpreter::execute` (`b']'` arm).
`ip -= 1` underflowing below zero is a panic, modelled as `none`. -/
def scanBackwardGo (code : List Nat) : Nat → Int → Option Nat
  | j, brackets =>
    match code.get? j with
    | none => none
    | some c =>
      let brackets' : Int :=
        if c = IDENT_JUMP_ZERO then brackets - 1
        else if c = IDENT_JUMP_NOT_ZERO then brackets + 1
        else brackets
      if brackets' = 0 then some j
      else
        match j with
        | 0 => none
        | j' + 1 => scanBackwardGo code j' brackets'

def scanBackward (code : List Nat) (j : Nat) : Option Nat :=
  scanBackwardGo code j 0

/-- One iteration of the `while self.ip < self.code.len()` loop of
`Interpreter::execute` (`src/interpreter.rs` lines 52-111), or the final
flush when `ip` has run off the end. -/
inductive StepResult where
  | cont (st : ExecState)
  | stop (st : ExecState)
  | ioError
  | fault

def interpStep (code : List Nat) (flush : FlushBehavior) (st : ExecState) :
    StepResult :=
  match code.get? st.ip with
  | none =>
    .stop (if flush = .OnEnd then { st with output := st.output ++ [.flush] }
           else st)
  | some c =>
    if c = IDENT_INC_DP then
      let dp' := st.dp + 1
      if dp' < DATA_SIZE then .cont { st with dp := dp', ip := st.ip + 1 }
      else .fault
    else if c = IDENT_DEC_DP then
      match st.dp with
      | 0 => .fault
      | dp' + 1 => .cont { st with dp := dp', ip := st.ip + 1 }
    else if c = IDENT_INC_DATA then
      .cont { st with
        data := updateCell st.data st.dp ((st.data st.dp + 1) % 256),
        ip := st.ip + 1 }
    else if c = IDENT_DEC_DATA then
      .cont { st with
        data := updateCell st.data st.dp ((st.data st.dp + 255) % 256),
        ip := st.ip + 1 }
    else if c = IDENT_READ_BYTE then
      match st.input with
      | [] => .ioError
      | b :: rest =>
        .cont { st with
          data := updateCell st.data st.dp (b % 256),
          input := rest, ip := st.ip + 1 }
    else if c = IDENT_WRITE_BYTE then
      let out := st.output ++ [.byte (st.data st.dp)]
      let out := if flush = .OnWrite then out ++ [.flush] else out
      .cont { st with output := out, ip := st.ip + 1 }
    else if c = IDENT_JUMP_ZERO then
      if st.data st.dp = 0 then
        match scanForward code st.ip with
        | none => .fault
        | some j => .cont { st with ip := j + 1 }
      else .cont { st with ip := st.ip + 1 }
    else if c = IDENT_JUMP_NOT_ZERO then
      if st.data st.dp ≠ 0 then
        match scanBackward code st.ip with
        | none => .fault
        | some j => .cont { st with ip := j + 1 }
      else .cont { st with ip := st.ip + 1 }
    else .cont { st with ip := st.ip + 1 }

/-- `Interpreter::execute`, fuelled. -/
def interpRun (code : List Nat) (flush : FlushBehavior) :
    Nat → ExecState → ExecResult
  | 0, _ => .timeout
  | fuel + 1, st =>
    match interpStep code flush st with
    | .cont st' => interpRun code flush fuel st'
    | .stop st' => .ok st'
    | .ioError => .ioError
    | .fault => .fault

/-- One iteration of the dispatch loop of `VirtualMachine::execute`
(`src/virtual_machine.rs` lines 37-81).  `IncDP` checks the tape bound
with `assert!`; `DecDP`'s `self.dp -= n` and `JumpNotZero`'s
`self.ip -= n` underflow is a panic; placeholders and jump instructions
whose guard fails hit the `_ => {}` arm and just advance `ip`. -/
def vmStep (ins : List Instruction) (flush : FlushBehavior)
    (st : ExecState) : StepResult :=
  match ins.get? st.ip with
  | none =>
    .stop (if flush = .OnEnd then { st with output := st.output ++ [.flush] }
           else st)
  | some a =>
    match a with
    | .IncDP n =>
      let dp' := st.dp + n
      if dp' < DATA_SIZE then .cont { st with dp := dp', ip := st.ip + 1 }
      else .fault
    | .DecDP n =>
      if n ≤ st.dp then .cont { st with dp := st.dp - n, ip := st.ip + 1 }
      else .fault
    | .IncByteAtDP n =>
      .cont { st with
        data := updateCell st.data st.dp ((st.data st.dp + n % 256) % 256),
        ip := st.ip + 1 }
    | .DecByteAtDP n =>
      .cont { st with
        data := updateCell st.data st.dp
          ((st.data st.dp + (256 - n % 256)) % 256),
        ip := st.ip + 1 }
    | .ReadByte =>
      match st.input with
      | [] => .ioError
      | b :: rest =>
        .cont { st with
          data := updateCell st.data st.dp (b % 256),
          input := rest, ip := st.ip + 1 }
    | .WriteByte n =>
      let out := st.output ++ List.replicate n (.byte (st.data st.dp))
      let out := if flush = .OnWrite then out ++ [.flush] else out
      .cont { st with output := out, ip := st.ip + 1 }
    | .JumpZero n =>
      if st.data st.dp = 0 then .cont { st with ip := st.ip + n }
      else .cont { st with ip := st.ip + 1 }
    | .JumpNotZero n =>
      if st.data st.dp ≠ 0 then
        if n ≤ st.ip then .cont { st with ip := st.ip - n }
        else .fault
      else .cont { st with ip := st.ip + 1 }
    | .JumpZeroPlaceholder => .cont { st with ip := st.ip + 1 }
    | .JumpNotZeroPlaceholder => .cont { st with ip := st.ip + 1 }

/-- `VirtualMachine::execute`, fuelled. -/
def vmRun (ins : List Instruction) (flush : FlushBehavior) :
    Nat → ExecState → ExecResult
  | 0, _ => .timeout
  | fuel + 1, st =>
    match vmStep ins flush st with
    | .cont st' => vmRun ins flush fuel st'
    | .stop st' => .ok st'
    | .ioError => .ioError
    | .fault => .fault

/-- Fresh execution state: zeroed tape, `ip = dp = 0`. -/
def initState (input : List Nat) : ExecState :=
  { ip := 0, data := fun _ => 0, dp := 0, input := input, output := [] }

/-- Output stream of a completed run. -/
def outputOf : ExecResult → Option (List WEvent)
  | .ok st => some st.output
  | _ => none

end BF

namespace BF

/-- `MachineCode` from `src/jit.rs` (`buf` plus the measure-only flag). -/
structure MachineCode where
  buf : List Nat
  suspend_write : Bool
  deriving DecidableEq, Repr

def MachineCode.default : MachineCode := { buf := [], suspend_write := false }

/-- `MachineCode::write`: append unless measuring; always return the
length of the byte sequence. -/
def MachineCode.write (mc : MachineCode) (code : List Nat) :
    MachineCode × Nat :=
  (if mc.suspend_write then mc else { mc with buf := mc.buf ++ code },
   code.length)

/-- `MachineCode::emit_inc_dp`.  Rust first truncates with `let n = n as u8`
and then matches `1`, `2..=127`, `128..=255`, `_ => 0` (the last arm emits
nothing and reports length 0). -/
def MachineCode.emit_inc_dp (mc : MachineCode) (n : Nat) :
    MachineCode × Nat :=
  let nb := n % 256
  if nb = 1 then mc.write [0x49, 0xff, 0xc4]
  else if 2 ≤ nb ∧ nb ≤ 127 then mc.write [0x49, 0x83, 0xc4, nb]
  else if 128 ≤ nb ∧ nb ≤ 255 then
    mc.write [0x49, 0x81, 0xc4, nb, 0x00, 0x00, 0x00]
  else (mc, 0)

/-- `MachineCode::emit_dec_dp`. -/
def MachineCode.emit_dec_dp (mc : MachineCode) (n : Nat) :
    MachineCode × Nat :=
  let nb := n % 256
  if nb = 1 then mc.write [0x49, 0xff, 0xcc]
  else if 2 ≤ nb ∧ nb ≤ 127 then mc.write [0x49, 0x83, 0xec, nb]
  else if 128 ≤ nb ∧ nb ≤ 255 then
    mc.write [0x49, 0x81, 0xec, nb, 0x00, 0x00, 0x00]
  else (mc, 0)

/-- `MachineCode::emit_inc_byte_at_dp` (`1`, `2..=255`, `_ => 0`). -/
def MachineCode.emit_inc_byte_at_dp (mc : MachineCode) (n : Nat) :
    MachineCode × Nat :=
  let nb := n % 256
  if nb = 1 then mc.write [0x41, 0xfe, 0x04, 0x24]
  else if 2 ≤ nb ∧ nb ≤ 255 then mc.write [0x41, 0x80, 0x04, 0x24, nb]
  else (mc, 0)

/-- `MachineCode::emit_dec_byte_at_dp`. -/
def MachineCode.emit_dec_byte_at_dp (mc : MachineCode) (n : Nat) :
    MachineCode × Nat :=
  let nb := n % 256
  if nb = 1 then mc.write [0x41, 0xfe, 0x0c, 0x24]
  else if 2 ≤ nb ∧ nb ≤ 255 then mc.write [0x41, 0x80, 0x2c, 0x24, nb]
  else (mc, 0)

/-- The 20-byte `write(2)` syscall sequence of
`MachineCode::emit_write_byte_at_dp`. -/
def writeSyscallBytes : List Nat :=
  [0xb8, 0x01, 0x00, 0x00, 0x00, 0xbf, 0x01, 0x00, 0x00, 0x00,
   0x4c, 0x89, 0xe6, 0xba, 0x01, 0x00, 0x00, 0x00, 0x0f, 0x05]

/-- `MachineCode::emit_write_byte_at_dp`: `n` copies of the syscall
sequence, returning the summed length. -/
def MachineCode.emit_write_byte_at_dp (mc : MachineCode) :
    Nat → MachineCode × Nat
  | 0 => (mc, 0)
  | n + 1 =>
    let (mc', l) := mc.write writeSyscallBytes
    let (mc'', ls) := mc'.emit_write_byte_at_dp n
    (mc'', l + ls)

/-- The 20-byte `read(2)` syscall sequence of
`MachineCode::emit_read_byte_at_dp`. -/
def readSyscallBytes : List Nat :=
  [0xb8, 0x00, 0x00, 0x00, 0x00, 0xbf, 0x00, 0x00, 0x00, 0x00,
   0x4c, 0x89, 0xe6, 0xba, 0x01, 0x00, 0x00, 0x00, 0x0f, 0x05]

def MachineCode.emit_read_byte_at_dp (mc : MachineCode) :
    MachineCode × Nat :=
  mc.write readSyscallBytes

/-- Little-endian bytes of an `i32` (`to_le_bytes` after reduction into
two's complement). -/
def le4 (x : Int) : List Nat :=
  let u := (x % (2 ^ 32 : Int)).toNat
  [u % 256, u / 2 ^ 8 % 256, u / 2 ^ 16 % 256, u / 2 ^ 24 % 256]

/-- `MachineCode::emit_jump_zero`: `cmp BYTE PTR [r12],0x0` + `je`, an
11-byte sequence whatever the displacement. -/
def MachineCode.emit_jump_zero (mc : MachineCode) (skip_bytes : Int) :
    MachineCode × Nat :=
  mc.write ([0x41, 0x80, 0x3c, 0x24, 0x00, 0x0f, 0x84] ++ le4 skip_bytes)

/-- `MachineCode::emit_jump_not_zero`: `cmp` + `jne` with displacement
`-(skip_bytes + 11)` (the jump instruction is itself 11 bytes long). -/
def MachineCode.emit_jump_not_zero (mc : MachineCode) (skip_bytes : Nat) :
    MachineCode × Nat :=
  mc.write ([0x41, 0x80, 0x3c, 0x24, 0x00, 0x0f, 0x85]
    ++ le4 (-(skip_bytes + 11 : Int)))

/-- `MachineCode::get_only_len`: run the emitter with `suspend_write`
set, then clear the flag and report the length. -/
def MachineCode.get_only_len (mc : MachineCode)
    (f : MachineCode → MachineCode × Nat) : MachineCode × Nat :=
  let mc₁ := { mc with suspend_write := true }
  let (mc₂, len) := f mc₁
  ({ mc₂ with suspend_write := false }, len)

/-- `JitCompiler::get_instruction_bytes`: measure one instruction,
passing displacement 0 for the two jumps.  The `_ => unreachable!()`
arm for the placeholder variants is a panic, modelled as `none`. -/
def get_instruction_bytes (mc : MachineCode) (instr : Instruction) :
    Option (MachineCode × Nat) :=
  match instr with
  | .IncDP n => some (mc.get_only_len (fun mc => mc.emit_inc_dp n))
  | .DecDP n => some (mc.get_only_len (fun mc => mc.emit_dec_dp n))
  | .IncByteAtDP n => some (mc.get_only_len (fun mc => mc.emit_inc_byte_at_dp n))
  | .DecByteAtDP n => some (mc.get_only_len (fun mc => mc.emit_dec_byte_at_dp n))
  | .WriteByte n => some (mc.get_only_len (fun mc => mc.emit_write_byte_at_dp n))
  | .ReadByte => some (mc.get_only_len (fun mc => mc.emit_read_byte_at_dp))
  | .JumpZero _ => some (mc.get_only_len (fun mc => mc.emit_jump_zero 0))
  | .JumpNotZero _ => some (mc.get_only_len (fun mc => mc.emit_jump_not_zero 0))
  | .JumpZeroPlaceholder => none
  | .JumpNotZeroPlaceholder => none

/-- The real-emission dispatch of `JitCompiler::execute` for one
instruction, with the jump displacements abstracted as parameters
(`execute` computes them by summing measured lengths).  Placeholders hit
`_ => unreachable!()`, modelled as `none`. -/
def emitReal (mc : MachineCode) (instr : Instruction)
    (dz : Int) (dnz : Nat) : Option (MachineCode × Nat) :=
  match instr with
  | .IncDP n => some (mc.emit_inc_dp n)
  | .DecDP n => some (mc.emit_dec_dp n)
  | .IncByteAtDP n => some (mc.emit_inc_byte_at_dp n)
  | .DecByteAtDP n => some (mc.emit_dec_byte_at_dp n)
  | .WriteByte n => some (mc.emit_write_byte_at_dp n)
  | .ReadByte => some (mc.emit_read_byte_at_dp)
  | .JumpZero _ => some (mc.emit_jump_zero dz)
  | .JumpNotZero _ => some (mc.emit_jump_not_zero dnz)
  | .JumpZeroPlaceholder => none
  | .JumpNotZeroPlaceholder => none

end BF

namespace BF

/-! ### Helper lemmas about `MachineCode` emitters -/

/-- Writing the empty sequence is a no-op returning length 0. -/
theorem write_nil (mc : MachineCode) : mc.write [] = (mc, 0) := by
  cases mc with
  | mk buf s => cases s <;> simp [MachineCode.write]

/-- Two consecutive writes append the concatenation. -/
theorem write_write (mc : MachineCode) (a b : List Nat) :
    ((mc.write a).1).write b = ((mc.write (a ++ b)).1, b.length) := by
  cases mc with
  | mk buf s => cases s <;> simp [MachineCode.write]

/-- Every emitter of `machine_code` only ever calls `self.write` on one
byte sequence determined by its arguments: this is the determinism that
`get_only_len` relies on. -/
def EmitsFixed (f : MachineCode → MachineCode × Nat) : Prop :=
  ∃ code, ∀ mc, f mc = mc.write code

theorem emitsFixed_inc_dp (n : Nat) :
    EmitsFixed (fun mc => mc.emit_inc_dp n) := by
  unfold MachineCode.emit_inc_dp
  by_cases h1 : n % 256 = 1
  · exact ⟨[0x49, 0xff, 0xc4], fun mc => by simp [h1]⟩
  · by_cases h2 : 2 ≤ n % 256 ∧ n % 256 ≤ 127
    · exact ⟨[0x49, 0x83, 0xc4, n % 256], fun mc => by simp [h1, h2]⟩
    · by_cases h3 : 128 ≤ n % 256 ∧ n % 256 ≤ 255
      · exact ⟨[0x49, 0x81, 0xc4, n % 256, 0, 0, 0],
          fun mc => by simp [h1, h2, h3]⟩
      · exact ⟨[], fun mc => by simp [h1, h2, h3, write_nil]⟩

theorem emitsFixed_dec_dp (n : Nat) :
    EmitsFixed (fun mc => mc.emit_dec_dp n) := by
  unfold MachineCode.emit_dec_dp
  by_cases h1 : n % 256 = 1
  · exact ⟨[0x49, 0xff, 0xcc], fun mc => by simp [h1]⟩
  · by_cases h2 : 2 ≤ n % 256 ∧ n % 256 ≤ 127
    · exact ⟨[0x49, 0x83, 0xec, n % 256], fun mc => by simp [h1, h2]⟩
    · by_cases h3 : 128 ≤ n % 256 ∧ n % 256 ≤ 255
      · exact ⟨[0x49, 0x81, 0xec, n % 256, 0, 0, 0],
          fun mc => by simp [h1, h2, h3]⟩
      · exact ⟨[], fun mc => by simp [h1, h2, h3, write_nil]⟩

theorem emitsFixed_inc_byte (n : Nat) :
    EmitsFixed (fun mc => mc.emit_inc_byte_at_dp n) := by
  unfold MachineCode.emit_inc_byte_at_dp
  by_cases h1 : n % 256 = 1
  · exact ⟨[0x41, 0xfe, 0x04, 0x24], fun mc => by simp [h1]⟩
  · by_cases h2 : 2 ≤ n % 256 ∧ n % 256 ≤ 255
    · exact ⟨[0x41, 0x80, 0x04, 0x24, n % 256], fun mc => by simp [h1, h2]⟩
    · exact ⟨[], fun mc => by simp [h1, h2, write_nil]⟩

theorem emitsFixed_dec_byte (n : Nat) :
    EmitsFixed (fun mc => mc.emit_dec_byte_at_dp n) := by
  unfold MachineCode.emit_dec_byte_at_dp
  by_cases h1 : n % 256 = 1
  · exact ⟨[0x41, 0xfe, 0x0c, 0x24], fun mc => by simp [h1]⟩
  · by_cases h2 : 2 ≤ n % 256 ∧ n % 256 ≤ 255
    · exact ⟨[0x41, 0x80, 0x2c, 0x24, n % 256], fun mc => by simp [h1, h2]⟩
    · exact ⟨[], fun mc => by simp [h1, h2, write_nil]⟩

theorem emitsFixed_write_byte (n : Nat) :
    EmitsFixed (fun mc => mc.emit_write_byte_at_dp n) := by
  induction n with
  | zero => exact ⟨[], fun mc => by simp [MachineCode.emit_write_byte_at_dp, write_nil]⟩
  | succ n ih =>
    obtain ⟨code, hcode⟩ := ih
    refine ⟨writeSyscallBytes ++ code, fun mc => ?_⟩
    show (let (mc', l) := mc.write writeSyscallBytes
          let (mc'', ls) := mc'.emit_write_byte_at_dp n
          (mc'', l + ls)) = mc.write (writeSyscallBytes ++ code)
    simp only [hcode, write_write, MachineCode.write]
    cases mc with
    | mk buf s => cases s <;> simp [writeSyscallBytes] <;> omega

theorem emitsFixed_read_byte :
    EmitsFixed (fun mc => mc.emit_read_byte_at_dp) :=
  ⟨readSyscallBytes, fun _ => rfl⟩

theorem emitsFixed_jump_zero (d : Int) :
    EmitsFixed (fun mc => mc.emit_jump_zero d) :=
  ⟨_, fun _ => rfl⟩

theorem emitsFixed_jump_not_zero (d : Nat) :
    EmitsFixed (fun mc => mc.emit_jump_not_zero d) :=
  ⟨_, fun _ => rfl⟩

/-- Measuring any fixed-sequence emitter returns exactly the byte count
that real emission appends, and leaves the buffer untouched. -/
theorem measure_eq_emit {f : MachineCode → MachineCode × Nat}
    (hf : EmitsFixed f) (mc : MachineCode)
    (hs : mc.suspend_write = false) :
    mc.get_only_len f = (mc, (f mc).2) ∧
    (f mc).1.buf.length = mc.buf.length + (f mc).2 ∧
    (f mc).1.suspend_write = false := by
  obtain ⟨code, hcode⟩ := hf
  obtain ⟨buf, s⟩ := mc
  simp only at hs
  subst hs
  refine ⟨?_, ?_, ?_⟩
  · simp [MachineCode.get_only_len, hcode, MachineCode.write]
  · simp [hcode, MachineCode.write]
  · simp [hcode, MachineCode.write]

end BF

namespace BF

theorem emit_jump_zero_len (mc : MachineCode) (d : Int) :
    (mc.emit_jump_zero d).2 = 11 := by
  simp [MachineCode.emit_jump_zero, MachineCode.write, le4]

theorem emit_jump_not_zero_len (mc : MachineCode) (d : Nat) :
    (mc.emit_jump_not_zero d).2 = 11 := by
  simp [MachineCode.emit_jump_not_zero, MachineCode.write, le4]

/-- C9: Measurement mode agrees with emission: for every bytecode
instruction (the placeholders have no emitter) and payload, the length
returned by `get_instruction_bytes` (which runs the emitter under
`get_only_len`) equals the number of bytes the same emitter appends to
the buffer when emitting for real, measuring leaves the buffer (indeed
the whole `MachineCode`) unchanged, and the length of a conditional
jump is 11 bytes independently of its displacement payload. -/
theorem measuring_agrees_with_emission (mc : MachineCode)
    (hs : mc.suspend_write = false) (instr : Instruction)
    (h1 : instr ≠ .JumpZeroPlaceholder)
    (h2 : instr ≠ .JumpNotZeroPlaceholder) (dz : Int) (dnz : Nat) :
    ∃ emc len, emitReal mc instr dz dnz = some (emc, len) ∧
      get_instruction_bytes mc instr = some (mc, len) ∧
      emc.buf.length = mc.buf.length + len ∧
      emc.suspend_write = false ∧
      (mc.emit_jump_zero dz).2 = 11 ∧
      (mc.emit_jump_not_zero dnz).2 = 11 := by
  have hjz := emit_jump_zero_len mc dz
  have hjnz := emit_jump_not_zero_len mc dnz
  cases instr with
  | IncDP n =>
    obtain ⟨hm, hl, hsw⟩ := measure_eq_emit (emitsFixed_inc_dp n) mc hs
    exact ⟨_, _, rfl, congrArg some hm, hl, hsw, hjz, hjnz⟩
  | DecDP n =>
    obtain ⟨hm, hl, hsw⟩ := measure_eq_emit (emitsFixed_dec_dp n) mc hs
    exact ⟨_, _, rfl, congrArg some hm, hl, hsw, hjz, hjnz⟩
  | IncByteAtDP n =>
    obtain ⟨hm, hl, hsw⟩ := measure_eq_emit (emitsFixed_inc_byte n) mc hs
    exact ⟨_, _, rfl, congrArg some hm, hl, hsw, hjz, hjnz⟩
  | DecByteAtDP n =>
    obtain ⟨hm, hl, hsw⟩ := measure_eq_emit (emitsFixed_dec_byte n) mc hs
    exact ⟨_, _, rfl, congrArg some hm, hl, hsw, hjz, hjnz⟩
  | WriteByte n =>
    obtain ⟨hm, hl, hsw⟩ := measure_eq_emit (emitsFixed_write_byte n) mc hs
    exact ⟨_, _, rfl, congrArg some hm, hl, hsw, hjz, hjnz⟩
  | ReadByte =>
    obtain ⟨hm, hl, hsw⟩ := measure_eq_emit emitsFixed_read_byte mc hs
    exact ⟨_, _, rfl, congrArg some hm, hl, hsw, hjz, hjnz⟩
  | JumpZero m =>
    obtain ⟨hm, _, _⟩ := measure_eq_emit (emitsFixed_jump_zero 0) mc hs
    obtain ⟨_, hl, hsw⟩ := measure_eq_emit (emitsFixed_jump_zero dz) mc hs
    refine ⟨_, _, rfl, ?_, hl, hsw, hjz, hjnz⟩
    have h : mc.get_only_len (fun mc => mc.emit_jump_zero 0) =
        (mc, (mc.emit_jump_zero dz).2) := by
      rw [hm, emit_jump_zero_len, emit_jump_zero_len]
    exact congrArg some h
  | JumpNotZero m =>
    obtain ⟨hm, _, _⟩ := measure_eq_emit (emitsFixed_jump_not_zero 0) mc hs
    obtain ⟨_, hl, hsw⟩ := measure_eq_emit (emitsFixed_jump_not_zero dnz) mc hs
    refine ⟨_, _, rfl, ?_, hl, hsw, hjz, hjnz⟩
    have h : mc.get_only_len (fun mc => mc.emit_jump_not_zero 0) =
        (mc, (mc.emit_jump_not_zero dnz).2) := by
      rw [hm, emit_jump_not_zero_len, emit_jump_not_zero_len]
    exact congrArg some h
  | JumpZeroPlaceholder => exact absurd rfl h1
  | JumpNotZeroPlaceholder => exact absurd rfl h2

/-- C9 witness: the theorem instantiated at a `JumpZero` with a
nonzero displacement on the empty buffer. -/
theorem measuring_agrees_with_emission_witness :
    MachineCode.default.suspend_write = false ∧
    (Instruction.JumpZero 2 : Instruction) ≠ .JumpZeroPlaceholder ∧
    (Instruction.JumpZero 2 : Instruction) ≠ .JumpNotZeroPlaceholder ∧
    ∃ emc len,
      emitReal MachineCode.default (.JumpZero 2) 12345 0 = some (emc, len) ∧
      get_instruction_bytes MachineCode.default (.JumpZero 2) =
        some (MachineCode.default, len) ∧
      emc.buf.length = MachineCode.default.buf.length + len ∧
      emc.suspend_write = false ∧
      (MachineCode.default.emit_jump_zero 12345).2 = 11 ∧
      (MachineCode.default.emit_jump_not_zero 0).2 = 11 :=
  ⟨rfl, by decide, by decide,
    measuring_agrees_with_emission MachineCode.default rfl (.JumpZero 2)
      (by decide) (by decide) 12345 0⟩

/-- C8: the JIT's arithmetic emitters do NOT select the 32-bit form for
every count above 127: `let n = n as u8` truncates the count first, so
`emit_inc_dp 256` emits nothing at all (and reports length 0) and
`emit_inc_dp 300` emits the 8-bit-immediate form `add r12,44`, adjusting
by 44 instead of 300.  This evaluates the embedded code at the failing
inputs of the code_bug report. -/
theorem jit_truncates_folded_counts :
    MachineCode.default.emit_inc_dp 256 = (MachineCode.default, 0) ∧
    MachineCode.default.emit_inc_dp 300 =
      ({ buf := [0x49, 0x83, 0xc4, 44], suspend_write := false }, 4) ∧
    MachineCode.default.emit_dec_dp 256 = (MachineCode.default, 0) ∧
    MachineCode.default.emit_inc_byte_at_dp 256 = (MachineCode.default, 0) ∧
    (MachineCode.default.emit_inc_byte_at_dp 200).1.buf =
      [0x41, 0x80, 0x04, 0x24, 200] := by
  decide

/-- C3 counterexample: compiling the one-character source `"]"` does NOT
fail: `compile` returns a bytecode program (a single dangling
`JumpNotZeroPlaceholder`), contradicting "compilation never returns a
bytecode program for unbalanced input" (there is no `CompileError`
anywhere in the crate). -/
theorem compile_lone_close_returns_program :
    compile [IDENT_JUMP_NOT_ZERO] = some [.JumpNotZeroPlaceholder] ∧
    compile [IDENT_JUMP_NOT_ZERO] ≠ none := by
  decide

/-- C3 amended: `compile` has no error channel at all.  A lone `]`
compiles successfully to a single dangling `JumpNotZeroPlaceholder`,
while a lone `[` makes phase 3 panic (out-of-bounds index while looking
for the matching backward jump) instead of reporting a `CompileError`. -/
theorem compile_unbalanced_brackets :
    compile [IDENT_JUMP_NOT_ZERO] = some [.JumpNotZeroPlaceholder] ∧
    compile [IDENT_JUMP_ZERO] = none := by
  decide

/-- C2 counterexample: two consecutive `Read` opcodes compile to ONE
`ReadByte` instruction, not two, and two consecutive `Write` opcodes
compile to the single folded `WriteByte 2`, not two one-byte `Write`
instructions: `push_instruction` folds reads and writes exactly like the
cell/pointer opcodes (dropping the count for reads). -/
theorem read_write_opcodes_fold :
    compile [IDENT_READ_BYTE, IDENT_READ_BYTE] = some [.ReadByte] ∧
    [Instruction.ReadByte].length ≠ 2 ∧
    compile [IDENT_WRITE_BYTE, IDENT_WRITE_BYTE] = some [.WriteByte 2] ∧
    [Instruction.WriteByte 2].length ≠ 2 := by
  decide

/-- C1 counterexample: interpreter and VM outputs differ on the program
`,,.` with input bytes `[1, 2]`: the interpreter consumes both bytes and
prints 2, while the compiler folds the two `Read` opcodes into a single
`ReadByte`, so the VM consumes one byte and prints 1. -/
theorem interp_vm_outputs_differ :
    outputOf (interpRun [IDENT_READ_BYTE, IDENT_READ_BYTE, IDENT_WRITE_BYTE]
        .Disabled 5 (initState [1, 2])) = some [.byte 2] ∧
    compile [IDENT_READ_BYTE, IDENT_READ_BYTE, IDENT_WRITE_BYTE] =
      some [.ReadByte, .WriteByte 1] ∧
    outputOf (vmRun [.ReadByte, .WriteByte 1] .Disabled 5
        (initState [1, 2])) = some [.byte 1] ∧
    (some [WEvent.byte 2] : Option (List WEvent)) ≠ some [.byte 1] := by
  decide

/-- C7 counterexample: executing the folded `WriteByte 2` under the
`OnWrite` flush policy performs ONE flush after both bytes, not one
flush per written byte: the writer trace is `[byte 0, byte 0, flush]`
and contains a single `flush` event, not two. -/
theorem writebyte_flushes_once :
    outputOf (vmRun [.WriteByte 2] .OnWrite 2 (initState [])) =
      some [.byte 0, .byte 0, .flush] ∧
    List.count WEvent.flush [WEvent.byte 0, WEvent.byte 0, WEvent.flush]
      = 1 ∧
    List.count WEvent.flush [WEvent.byte 0, WEvent.byte 0, WEvent.flush]
      ≠ 2 := by
  decide

/-- C7 amended: in the VM, `WriteByte n` under `OnWrite` writes exactly
`n` copies of the byte at DP to the sink and then flushes exactly once,
after the last byte (whereas `n` unfolded single `Write` opcodes would
flush after every byte). -/
theorem writebyte_folded_semantics (n : Nat) (d : Nat → Nat)
    (dp : Nat) (inp : List Nat) (out : List WEvent) :
    vmRun [.WriteByte n] .OnWrite 2
        { ip := 0, data := d, dp := dp, input := inp, output := out } =
      .ok { ip := 1, data := d, dp := dp, input := inp,
            output := (out ++ List.replicate n (.byte (d dp))) ++ [.flush] } :=
  rfl

end BF

namespace BF

/-- C10: a leftover `JumpZeroPlaceholder` or `JumpNotZeroPlaceholder` in
the instruction list falls into the VM dispatch's `_ => {}` arm: the
step advances `ip` by one and leaves tape, DP and both I/O streams
untouched; consequently the program compiled from the lone surplus `]`
(a single `JumpNotZeroPlaceholder`) runs to completion without error. -/
theorem vm_placeholder_is_noop :
    (∀ (ins : List Instruction) (flush : FlushBehavior) (st : ExecState),
      ins.get? st.ip = some .JumpZeroPlaceholder →
      vmStep ins flush st = .cont { st with ip := st.ip + 1 }) ∧
    (∀ (ins : List Instruction) (flush : FlushBehavior) (st : ExecState),
      ins.get? st.ip = some .JumpNotZeroPlaceholder →
      vmStep ins flush st = .cont { st with ip := st.ip + 1 }) ∧
    compile [IDENT_JUMP_NOT_ZERO] = some [.JumpNotZeroPlaceholder] ∧
    (∀ (d : Nat → Nat) (dp : Nat) (inp : List Nat) (out : List WEvent),
      vmRun [.JumpNotZeroPlaceholder] .Disabled 2
          { ip := 0, data := d, dp := dp, input := inp, output := out } =
        .ok { ip := 1, data := d, dp := dp, input := inp, output := out }) := by
  refine ⟨?_, ?_, by decide, fun d dp inp out => rfl⟩
  · intro ins flush st h
    unfold vmStep
    rw [h]
  · intro ins flush st h
    unfold vmStep
    rw [h]

/-- C10 witness: the placeholder no-op step applied at a concrete state,
plus the concrete run of `compile "]"`. -/
theorem vm_placeholder_is_noop_witness :
    vmStep [.JumpZeroPlaceholder] .OnWrite (initState [7]) =
      .cont { initState [7] with ip := 1 } ∧
    vmStep [.JumpNotZeroPlaceholder] .OnEnd (initState []) =
      .cont { initState [] with ip := 1 } ∧
    vmRun [.JumpNotZeroPlaceholder] .Disabled 2
        { ip := 0, data := fun _ => 0, dp := 0, input := [], output := [] } =
      .ok { ip := 1, data := fun _ => 0, dp := 0, input := [],
            output := [] } :=
  ⟨vm_placeholder_is_noop.1 [.JumpZeroPlaceholder] .OnWrite (initState [7]) rfl,
   vm_placeholder_is_noop.2.1 [.JumpNotZeroPlaceholder] .OnEnd (initState []) rfl,
   vm_placeholder_is_noop.2.2.2 (fun _ => 0) 0 [] []⟩

end BF


namespace BF

/-! ### Unfolding lemmas for the fuelled run loops -/

theorem interpRun_cont {code : List Nat} {flush : FlushBehavior}
    {st st' : ExecState} (fuel : Nat)
    (h : interpStep code flush st = .cont st') :
    interpRun code flush (fuel + 1) st = interpRun code flush fuel st' := by
  show (match interpStep code flush st with
    | .cont st' => interpRun code flush fuel st'
    | .stop st' => ExecResult.ok st'
    | .ioError => ExecResult.ioError
    | .fault => ExecResult.fault) = _
  rw [h]

theorem interpRun_stop {code : List Nat} {flush : FlushBehavior}
    {st st' : ExecState} (fuel : Nat)
    (h : interpStep code flush st = .stop st') :
    interpRun code flush (fuel + 1) st = .ok st' := by
  show (match interpStep code flush st with
    | .cont st' => interpRun code flush fuel st'
    | .stop st' => ExecResult.ok st'
    | .ioError => ExecResult.ioError
    | .fault => ExecResult.fault) = _
  rw [h]

theorem interpRun_fault {code : List Nat} {flush : FlushBehavior}
    {st : ExecState} (fuel : Nat)
    (h : interpStep code flush st = .fault) :
    interpRun code flush (fuel + 1) st = .fault := by
  show (match interpStep code flush st with
    | .cont st' => interpRun code flush fuel st'
    | .stop st' => ExecResult.ok st'
    | .ioError => ExecResult.ioError
    | .fault => ExecResult.fault) = _
  rw [h]

theorem vmRun_cont {ins : List Instruction} {flush : FlushBehavior}
    {st st' : ExecState} (fuel : Nat)
    (h : vmStep ins flush st = .cont st') :
    vmRun ins flush (fuel + 1) st = vmRun ins flush fuel st' := by
  show (match vmStep ins flush st with
    | .cont st' => vmRun ins flush fuel st'
    | .stop st' => ExecResult.ok st'
    | .ioError => ExecResult.ioError
    | .fault => ExecResult.fault) = _
  rw [h]

theorem vmRun_stop {ins : List Instruction} {flush : FlushBehavior}
    {st st' : ExecState} (fuel : Nat)
    (h : vmStep ins flush st = .stop st') :
    vmRun ins flush (fuel + 1) st = .ok st' := by
  show (match vmStep ins flush st with
    | .cont st' => vmRun ins flush fuel st'
    | .stop st' => ExecResult.ok st'
    | .ioError => ExecResult.ioError
    | .fault => ExecResult.fault) = _
  rw [h]

theorem vmRun_fault {ins : List Instruction} {flush : FlushBehavior}
    {st : ExecState} (fuel : Nat)
    (h : vmStep ins flush st = .fault) :
    vmRun ins flush (fuel + 1) st = .fault := by
  show (match vmStep ins flush st with
    | .cont st' => vmRun ins flush fuel st'
    | .stop st' => ExecResult.ok st'
    | .ioError => ExecResult.ioError
    | .fault => ExecResult.fault) = _
  rw [h]

/-! ### Runs of `>` and `,` under the interpreter -/

theorem get?_replicate_lt {α : Type} (a : α) {K i : Nat} (h : i < K) :
    (List.replicate K a).get? i = some a := by
  simp [List.get?_eq_getElem?, List.getElem?_replicate, h]

theorem get?_replicate_ge {α : Type} (a : α) {K i : Nat} (h : K ≤ i) :
    (List.replicate K a).get? i = none := by
  simp [List.get?_eq_getElem?, List.getElem?_eq_none, h]

/-- Past the end of the program, every interpreter run under `Disabled`
stops immediately with the state unchanged. -/
theorem interpStep_end {code : List Nat} {st : ExecState}
    (h : code.get? st.ip = none) :
    interpStep code .Disabled st = .stop st := by
  unfold interpStep
  rw [h]
  simp

/-- Executing the remaining `n` of `K` consecutive `>` opcodes from
`dp`, when `dp + n` stays below the tape size, terminates normally with
`dp + n`. -/
theorem interpRun_adv_ok (K : Nat) :
    ∀ (n i dp fuel : Nat) (d : Nat → Nat) (inp : List Nat)
      (out : List WEvent), i + n = K → dp + n < DATA_SIZE → n + 1 ≤ fuel →
    interpRun (List.replicate K IDENT_INC_DP) .Disabled fuel
        { ip := i, data := d, dp := dp, input := inp, output := out } =
      .ok { ip := i + n, data := d, dp := dp + n, input := inp,
            output := out } := by
  intro n
  induction n with
  | zero =>
    intro i dp fuel d inp out hK hdp hf
    obtain ⟨f, rfl⟩ : ∃ f, fuel = f + 1 := ⟨fuel - 1, by omega⟩
    exact interpRun_stop f
      (interpStep_end (get?_replicate_ge _ (show K ≤ i by omega)))
  | succ n ih =>
    intro i dp fuel d inp out hK hdp hf
    obtain ⟨f, rfl⟩ : ∃ f, fuel = f + 1 := ⟨fuel - 1, by omega⟩
    have hi : i < K := by omega
    have hstep : interpStep (List.replicate K IDENT_INC_DP) .Disabled
        { ip := i, data := d, dp := dp, input := inp, output := out } =
        .cont { ip := i + 1, data := d, dp := dp + 1, input := inp,
                output := out } := by
      unfold interpStep
      rw [get?_replicate_lt _ hi]
      have hdp1 : dp + 1 < DATA_SIZE := by omega
      simp [hdp1]
    rw [interpRun_cont f hstep,
      ih (i + 1) (dp + 1) f d inp out (by omega) (by omega) (by omega)]
    have h1 : i + 1 + n = i + (n + 1) := by omega
    have h2 : dp + 1 + n = dp + (n + 1) := by omega
    rw [h1, h2]

/-- Executing `n` further `>` opcodes from `dp` faults as soon as the
data pointer reaches the tape size. -/
theorem interpRun_adv_fault (K : Nat) :
    ∀ (n i dp fuel : Nat) (d : Nat → Nat) (inp : List Nat)
      (out : List WEvent), i + n = K → DATA_SIZE ≤ dp + n →
      dp < DATA_SIZE → n + 1 ≤ fuel →
    interpRun (List.replicate K IDENT_INC_DP) .Disabled fuel
        { ip := i, data := d, dp := dp, input := inp, output := out } =
      .fault := by
  intro n
  induction n with
  | zero => intro i dp fuel d inp out hK hdp hlt hf; omega
  | succ n ih =>
    intro i dp fuel d inp out hK hdp hlt hf
    obtain ⟨f, rfl⟩ : ∃ f, fuel = f + 1 := ⟨fuel - 1, by omega⟩
    have hi : i < K := by omega
    by_cases hdp1 : dp + 1 < DATA_SIZE
    · have hstep : interpStep (List.replicate K IDENT_INC_DP) .Disabled
          { ip := i, data := d, dp := dp, input := inp, output := out } =
          .cont { ip := i + 1, data := d, dp := dp + 1, input := inp,
                  output := out } := by
        unfold interpStep
        rw [get?_replicate_lt _ hi]
        simp [hdp1]
      rw [interpRun_cont f hstep]
      exact ih (i + 1) (dp + 1) f d inp out (by omega) (by omega)
        (by omega) (by omega)
    · have hstep : interpStep (List.replicate K IDENT_INC_DP) .Disabled
          { ip := i, data := d, dp := dp, input := inp, output := out } =
          .fault := by
        unfold interpStep
        rw [get?_replicate_lt _ hi]
        simp [hdp1]
      exact interpRun_fault f hstep

/-- Executing the remaining `n` of `K` consecutive `,` opcodes reads one
input byte per opcode: `n` bytes in total. -/
theorem interpRun_reads (K : Nat) :
    ∀ (n i dp fuel : Nat) (d : Nat → Nat) (inp : List Nat)
      (out : List WEvent), i + n = K → n ≤ inp.length → n + 1 ≤ fuel →
    ∃ d', interpRun (List.replicate K IDENT_READ_BYTE) .Disabled fuel
        { ip := i, data := d, dp := dp, input := inp, output := out } =
      .ok { ip := i + n, data := d', dp := dp, input := inp.drop n,
            output := out } := by
  intro n
  induction n with
  | zero =>
    intro i dp fuel d inp out hK hlen hf
    obtain ⟨f, rfl⟩ : ∃ f, fuel = f + 1 := ⟨fuel - 1, by omega⟩
    exact ⟨d, interpRun_stop f
      (interpStep_end (get?_replicate_ge _ (show K ≤ i by omega)))⟩
  | succ n ih =>
    intro i dp fuel d inp out hK hlen hf
    obtain ⟨f, rfl⟩ : ∃ f, fuel = f + 1 := ⟨fuel - 1, by omega⟩
    have hi : i < K := by omega
    obtain ⟨b, rest, rfl⟩ : ∃ b rest, inp = b :: rest := by
      cases inp with
      | nil => simp at hlen
      | cons b rest => exact ⟨b, rest, rfl⟩
    have hstep : interpStep (List.replicate K IDENT_READ_BYTE) .Disabled
        { ip := i, data := d, dp := dp, input := b :: rest, output := out } =
        .cont { ip := i + 1, data := updateCell d dp (b % 256), dp := dp,
                input := rest, output := out } := by
      unfold interpStep
      rw [get?_replicate_lt _ hi]
      simp [IDENT_READ_BYTE, IDENT_INC_DP, IDENT_DEC_DP, IDENT_INC_DATA,
        IDENT_DEC_DATA]
    obtain ⟨d', hd'⟩ := ih (i + 1) dp f (updateCell d dp (b % 256)) rest out
      (by omega) (by simpa using hlen) (by omega)
    refine ⟨d', ?_⟩
    rw [interpRun_cont f hstep, hd']
    have h1 : i + 1 + n = i + (n + 1) := by omega
    rw [h1, List.drop_succ_cons]

end BF

namespace BF

/-! ### Characterising phase 1 (folding)

`push_instruction` skips comment bytes while scanning, so phase 1 is
insensitive to non-opcode bytes: it computes a run-length folding of the
comment-filtered stream.  `fold1` is that folding expressed structurally
on the filtered stream, and the lemmas below prove
`compilePhase1 code = fold1 (filterIdents code)`. -/

/-- The lexical filter of spec §4.1: drop every byte that is not one of
the eight opcode bytes.  (In the code this filtering is implicit in the
scanning loop of `push_instruction`.) -/
def filterIdents (code : List Nat) : List Nat :=
  code.filter (fun c => decide (c ∈ IDENTS))

/-- What one `push_instruction` call for opcode `instr` consumes from
the filtered stream: one leading bracket, or the whole leading run. -/
def consume (instr : Nat) (fs : List Nat) : Nat × List Nat :=
  if instr = IDENT_JUMP_ZERO ∨ instr = IDENT_JUMP_NOT_ZERO then
    match fs with
    | [] => (0, [])
    | c :: rest => if c = instr then (1, rest) else (0, c :: rest)
  else ((fs.takeWhile fun c => decide (c = instr)).length,
        fs.dropWhile fun c => decide (c = instr))

/-- Reference folding of a filtered stream: brackets one at a time, any
other byte as a maximal run. -/
def fold1Go : Nat → List Nat → List Instruction
  | 0, _ => []
  | _ + 1, [] => []
  | fuel + 1, c :: rest =>
    if c = IDENT_JUMP_ZERO ∨ c = IDENT_JUMP_NOT_ZERO then
      mkInstr c 1 :: fold1Go fuel rest
    else
      mkInstr c (1 + (rest.takeWhile fun d => decide (d = c)).length)
        :: fold1Go fuel (rest.dropWhile fun d => decide (d = c))

def fold1 (fs : List Nat) : List Instruction := fold1Go fs.length fs

theorem fold1Go_congr : ∀ (f1 f2 : Nat) (fs : List Nat),
    fs.length ≤ f1 → fs.length ≤ f2 → fold1Go f1 fs = fold1Go f2 fs := by
  intro f1
  induction f1 with
  | zero =>
    intro f2 fs h1 _
    obtain rfl : fs = [] := List.eq_nil_of_length_eq_zero (by omega)
    cases f2 <;> rfl
  | succ f1 ih =>
    intro f2 fs h1 h2
    cases fs with
    | nil => cases f2 <;> rfl
    | cons c rest =>
      obtain ⟨f2', rfl⟩ : ∃ f2', f2 = f2' + 1 := ⟨f2 - 1, by simp at h2; omega⟩
      simp only [fold1Go]
      by_cases hc : c = IDENT_JUMP_ZERO ∨ c = IDENT_JUMP_NOT_ZERO
      · rw [if_pos hc, if_pos hc,
          ih f2' rest (by simp at h1; omega) (by simp at h2; omega)]
      · rw [if_neg hc, if_neg hc, ih f2' _
          (le_trans (List.dropWhile_sublist _).length_le (by simp at h1; omega))
          (le_trans (List.dropWhile_sublist _).length_le (by simp at h2; omega))]

theorem fold1_cons_bracket {c : Nat} (rest : List Nat)
    (hc : c = IDENT_JUMP_ZERO ∨ c = IDENT_JUMP_NOT_ZERO) :
    fold1 (c :: rest) = mkInstr c 1 :: fold1 rest := by
  show fold1Go (rest.length + 1) (c :: rest) = _
  simp only [fold1Go, if_pos hc]
  rfl

theorem fold1_cons_run {c : Nat} (rest : List Nat)
    (hc : ¬(c = IDENT_JUMP_ZERO ∨ c = IDENT_JUMP_NOT_ZERO)) :
    fold1 (c :: rest) =
      mkInstr c (1 + (rest.takeWhile fun d => decide (d = c)).length)
        :: fold1 (rest.dropWhile fun d => decide (d = c)) := by
  show fold1Go (rest.length + 1) (c :: rest) = _
  simp only [fold1Go, if_neg hc]
  exact congrArg _ (fold1Go_congr _ _ _ (List.dropWhile_sublist _).length_le
    le_rfl)

/-- The iterated `push_instruction` calls of one pass over `IDENTS`,
expressed on the filtered stream. -/
def chew : List Nat → List Nat → List Instruction × List Nat
  | [], fs => ([], fs)
  | instr :: L, fs =>
    let (args, fs') := consume instr fs
    let (ps, fs'') := chew L fs'
    ((if 0 < args then [mkInstr instr args] else []) ++ ps, fs'')

theorem chew_cons (instr : Nat) (L fs : List Nat) :
    chew (instr :: L) fs =
      ((if 0 < (consume instr fs).1 then [mkInstr instr (consume instr fs).1]
        else []) ++ (chew L (consume instr fs).2).1,
       (chew L (consume instr fs).2).2) := by
  simp only [chew]

theorem consume_length_le (instr : Nat) (fs : List Nat) :
    (consume instr fs).2.length ≤ fs.length := by
  unfold consume
  by_cases h : instr = IDENT_JUMP_ZERO ∨ instr = IDENT_JUMP_NOT_ZERO
  · rw [if_pos h]
    cases fs with
    | nil => simp
    | cons c rest =>
      by_cases hc : c = instr <;> simp [hc]
  · rw [if_neg h]
    exact (List.dropWhile_sublist _).length_le

/-- `consume` for a mismatching head (or empty stream) changes nothing. -/
theorem consume_miss (instr : Nat) {fs : List Nat}
    (h : ∀ c, fs.head? = some c → c ≠ instr) :
    consume instr fs = (0, fs) := by
  unfold consume
  by_cases hj : instr = IDENT_JUMP_ZERO ∨ instr = IDENT_JUMP_NOT_ZERO
  · rw [if_pos hj]
    cases fs with
    | nil => rfl
    | cons c rest => simp [h c rfl]
  · rw [if_neg hj]
    cases fs with
    | nil => simp
    | cons c rest =>
      have : (fun x => decide (x = instr)) c = false := by
        simp [h c rfl]
      simp [List.takeWhile_cons, List.dropWhile_cons, this]

theorem chew_length_le : ∀ (L fs : List Nat),
    ((chew L fs).2).length ≤ fs.length := by
  intro L
  induction L with
  | nil => intro fs; simp [chew]
  | cons instr L ih =>
    intro fs
    rw [chew_cons]
    exact le_trans (ih _) (consume_length_le instr fs)

theorem chew_progress : ∀ (L : List Nat) (c : Nat) (rest : List Nat),
    c ∈ L → ((chew L (c :: rest)).2).length < (c :: rest).length := by
  intro L
  induction L with
  | nil => intro c rest h; cases h
  | cons d L ih =>
    intro c rest hmem
    rw [chew_cons]
    by_cases hcd : c = d
    · subst hcd
      have hcons : (consume c (c :: rest)).2.length ≤ rest.length := by
        unfold consume
        by_cases h : c = IDENT_JUMP_ZERO ∨ c = IDENT_JUMP_NOT_ZERO
        · simp [if_pos h]
        · rw [if_neg h]
          simp only [List.dropWhile_cons, decide_eq_true_eq, if_pos rfl]
          exact (List.dropWhile_sublist _).length_le
      calc ((chew L (consume c (c :: rest)).2).2).length
          ≤ (consume c (c :: rest)).2.length := chew_length_le _ _
        _ ≤ rest.length := hcons
        _ < (c :: rest).length := by simp
    · rw [consume_miss d (by rintro x hx rfl; exact hcd (by simpa using hx))]
      exact ih c rest ((List.mem_cons.mp hmem).resolve_left hcd)

theorem chew_fold1 : ∀ (L fs : List Nat),
    fold1 fs = (chew L fs).1 ++ fold1 ((chew L fs).2) := by
  intro L
  induction L with
  | nil => intro fs; simp [chew]
  | cons instr L ih =>
    intro fs
    rw [chew_cons]
    simp only
    cases fs with
    | nil =>
      rw [consume_miss instr (by intro c hc; cases hc)]
      simpa using ih []
    | cons c rest =>
      by_cases hc : c = instr
      · subst hc
        by_cases hj : c = IDENT_JUMP_ZERO ∨ c = IDENT_JUMP_NOT_ZERO
        · have hcons : consume c (c :: rest) = (1, rest) := by
            unfold consume; rw [if_pos hj]; simp
          rw [hcons]
          simp only [Nat.zero_lt_one, if_pos]
          rw [fold1_cons_bracket rest hj, ih rest]
          simp
        · have hcons : consume c (c :: rest) =
              (1 + (rest.takeWhile fun d => decide (d = c)).length,
               rest.dropWhile fun d => decide (d = c)) := by
            unfold consume
            rw [if_neg hj]
            simp [List.takeWhile_cons, List.dropWhile_cons, Nat.add_comm]
          rw [hcons]
          have hpos : 0 < 1 + (rest.takeWhile fun d => decide (d = c)).length :=
            by omega
          rw [if_pos hpos, fold1_cons_run rest hj,
            ih (rest.dropWhile fun d => decide (d = c))]
          simp
      · rw [consume_miss instr (by rintro x hx rfl; exact hc (by simpa using hx))]
        simpa using ih (c :: rest)

end BF

namespace BF

theorem consume_hit_jump {instr : Nat}
    (hj : instr = IDENT_JUMP_ZERO ∨ instr = IDENT_JUMP_NOT_ZERO)
    (t : List Nat) : consume instr (instr :: t) = (1, t) := by
  unfold consume
  rw [if_pos hj]
  simp

theorem consume_hit_run {instr : Nat}
    (hj : ¬(instr = IDENT_JUMP_ZERO ∨ instr = IDENT_JUMP_NOT_ZERO))
    (t : List Nat) :
    consume instr (instr :: t) =
      (1 + (consume instr t).1, (consume instr t).2) := by
  unfold consume
  rw [if_neg hj, if_neg hj]
  simp [List.takeWhile_cons, List.dropWhile_cons, Nat.add_comm]

theorem filterIdents_nil : filterIdents [] = [] := rfl

theorem filterIdents_cons_mem {c : Nat} (h : c ∈ IDENTS) (t : List Nat) :
    filterIdents (c :: t) = c :: filterIdents t := by
  simp [filterIdents, List.filter_cons, h]

theorem filterIdents_cons_not_mem {c : Nat} (h : c ∉ IDENTS) (t : List Nat) :
    filterIdents (c :: t) = filterIdents t := by
  simp [filterIdents, List.filter_cons, h]

/-- Behaviour of the `push_instruction` scanning loop on the filtered
remainder of the program: it consumes exactly what `consume` says and
leaves the scan index at an equivalent position. -/
theorem pushScanGo_spec (code : List Nat) (instr : Nat)
    (hins : instr ∈ IDENTS) :
    ∀ (fuel i args : Nat), code.length ≤ i + fuel → i ≤ code.length →
    ∃ i', pushScanGo code instr fuel i args
        = (args + (consume instr (filterIdents (code.drop i))).1, i') ∧
      filterIdents (code.drop i') =
        (consume instr (filterIdents (code.drop i))).2 ∧
      i ≤ i' ∧ i' ≤ code.length ∧
      (filterIdents (code.drop i) = [] → i' = code.length) := by
  intro fuel
  induction fuel with
  | zero =>
    intro i args h1 h2
    obtain rfl : i = code.length := by omega
    have hfs : filterIdents (code.drop code.length) = [] := by
      rw [List.drop_eq_nil_of_le le_rfl, filterIdents_nil]
    rw [hfs, consume_miss instr (by intro c hc; cases hc)]
    exact ⟨code.length, by simp [pushScanGo], by simp [hfs, filterIdents_nil],
      le_rfl, le_rfl, fun _ => rfl⟩
  | succ fuel ih =>
    intro i args h1 h2
    rcases hg : code.get? i with _ | c
    · have hlen : code.length ≤ i := List.get?_eq_none.mp hg
      obtain rfl : i = code.length := by omega
      have hfs : filterIdents (code.drop code.length) = [] := by
        rw [List.drop_eq_nil_of_le le_rfl, filterIdents_nil]
      rw [hfs, consume_miss instr (by intro c hc; cases hc)]
      exact ⟨code.length, by simp [pushScanGo, hg],
        by simp [hfs, filterIdents_nil], le_rfl, le_rfl, fun _ => rfl⟩
    · have hlt : i < code.length := by
        rcases List.get?_eq_some.mp hg with ⟨h, _⟩
        exact h
      have hcg : code[i] = c := by
        rcases List.get?_eq_some.mp hg with ⟨h, he⟩
        simpa using he
      have hdrop : code.drop i = c :: code.drop (i + 1) := by
        rw [List.drop_eq_getElem_cons hlt, hcg]
      by_cases hcI : c ∈ IDENTS
      · by_cases hci : c = instr
        · subst hci
          have hfs : filterIdents (code.drop i) =
              c :: filterIdents (code.drop (i + 1)) := by
            rw [hdrop, filterIdents_cons_mem hcI]
          by_cases hj : c = IDENT_JUMP_ZERO ∨ c = IDENT_JUMP_NOT_ZERO
          · refine ⟨i + 1, ?_, ?_, by omega, by omega, ?_⟩
            · show pushScanGo code c (fuel + 1) i args = _
              simp only [pushScanGo, hg]
              rw [if_neg (by simp), if_neg (by simp), if_pos hj,
                hfs, consume_hit_jump hj]
            · rw [hfs, consume_hit_jump hj]
            · intro h
              rw [hfs] at h
              cases h
          · obtain ⟨i', he, hf, hle, hle2, _⟩ :=
              ih (i + 1) (args + 1) (by omega) (by omega)
            refine ⟨i', ?_, ?_, by omega, hle2, ?_⟩
            · show pushScanGo code c (fuel + 1) i args = _
              simp only [pushScanGo, hg]
              rw [if_neg (by simp), if_neg (by simp), if_neg hj, he,
                hfs, consume_hit_run hj]
              simp [Nat.add_assoc]
            · rw [hfs, consume_hit_run hj]
              exact hf
            · intro h
              rw [hfs] at h
              cases h
        · have hfs : filterIdents (code.drop i) =
              c :: filterIdents (code.drop (i + 1)) := by
            rw [hdrop, filterIdents_cons_mem hcI]
          have hmiss : consume instr (filterIdents (code.drop i)) =
              (0, filterIdents (code.drop i)) := by
            rw [hfs]
            exact consume_miss instr (by
              intro x hx
              injection hx with hx'
              exact hx' ▸ hci)
          refine ⟨i, ?_, ?_, le_rfl, by omega, ?_⟩
          · show pushScanGo code instr (fuel + 1) i args = _
            simp only [pushScanGo, hg]
            rw [if_neg (by tauto), if_pos ⟨hci, hcI⟩, hmiss]
            simp
          · rw [hmiss]
          · intro h
            rw [hfs] at h
            cases h
      · have hcne : c ≠ instr := fun h => hcI (h ▸ hins)
        have hfs : filterIdents (code.drop i) =
            filterIdents (code.drop (i + 1)) := by
          rw [hdrop, filterIdents_cons_not_mem hcI]
        obtain ⟨i', he, hf, hle, hle2, hnil⟩ :=
          ih (i + 1) args (by omega) (by omega)
        refine ⟨i', ?_, ?_, by omega, hle2, ?_⟩
        · show pushScanGo code instr (fuel + 1) i args = _
          simp only [pushScanGo, hg]
          rw [if_pos ⟨hcne, hcI⟩, he, hfs]
        · rw [hfs]
          exact hf
        · intro h
          rw [hfs] at h
          exact hnil h

end BF

namespace BF

theorem push_instruction_spec (code : List Nat) (instr : Nat)
    (hins : instr ∈ IDENTS) (i : Nat) (ins : List Instruction)
    (hi : i ≤ code.length) :
    ∃ i', push_instruction code instr (i, ins)
        = (i', ins ++ (if 0 < (consume instr (filterIdents (code.drop i))).1
            then [mkInstr instr (consume instr (filterIdents (code.drop i))).1]
            else [])) ∧
      filterIdents (code.drop i') =
        (consume instr (filterIdents (code.drop i))).2 ∧
      i ≤ i' ∧ i' ≤ code.length ∧
      (filterIdents (code.drop i) = [] → i' = code.length) := by
  obtain ⟨i', he, hf, hle, hle2, hnil⟩ :=
    pushScanGo_spec code instr hins (code.length - i) i 0 (by omega) hi
  refine ⟨i', ?_, hf, hle, hle2, hnil⟩
  show (let (args, i) := pushScan code instr i 0
    (i, if 0 < args then ins ++ [mkInstr instr args] else ins)) = _
  rw [show pushScan code instr i 0 =
    ((consume instr (filterIdents (code.drop i))).1, i') from by
      simpa using he]
  by_cases hpos : 0 < (consume instr (filterIdents (code.drop i))).1
  · simp [hpos]
  · simp [hpos]

theorem pushList_spec (code : List Nat) :
    ∀ (L : List Nat), (∀ c ∈ L, c ∈ IDENTS) →
    ∀ (i : Nat) (ins : List Instruction), i ≤ code.length →
    ∃ i', L.foldl (fun st instr => push_instruction code instr st) (i, ins)
        = (i', ins ++ (chew L (filterIdents (code.drop i))).1) ∧
      filterIdents (code.drop i') =
        (chew L (filterIdents (code.drop i))).2 ∧
      i ≤ i' ∧ i' ≤ code.length ∧
      (filterIdents (code.drop i) = [] → L ≠ [] → i' = code.length) := by
  intro L
  induction L with
  | nil =>
    intro _ i ins hi
    exact ⟨i, by simp [chew], by simp [chew], le_rfl, hi,
      fun _ h => absurd rfl h⟩
  | cons instr L ih =>
    intro hL i ins hi
    obtain ⟨i1, he1, hf1, hle1, hle1', hnil1⟩ :=
      push_instruction_spec code instr (hL instr (by simp)) i ins hi
    obtain ⟨i', he', hf', hle', hle2', _⟩ :=
      ih (fun c hc => hL c (by simp [hc])) i1
        (ins ++ (if 0 < (consume instr (filterIdents (code.drop i))).1
          then [mkInstr instr (consume instr (filterIdents (code.drop i))).1]
          else [])) hle1'
    refine ⟨i', ?_, ?_, by omega, hle2', ?_⟩
    · rw [List.foldl_cons, he1, he', hf1, chew_cons]
      simp [List.append_assoc]
    · rw [hf', hf1, chew_cons]
    · intro hnil _
      have h1 : i1 = code.length := hnil1 hnil
      omega

/-- One pass of the `for ident in IDENTS.iter()` loop. -/
theorem pushAll_spec (code : List Nat) (i : Nat) (ins : List Instruction)
    (hi : i ≤ code.length) :
    ∃ i', pushAll code (i, ins)
        = (i', ins ++ (chew IDENTS (filterIdents (code.drop i))).1) ∧
      filterIdents (code.drop i') =
        (chew IDENTS (filterIdents (code.drop i))).2 ∧
      i ≤ i' ∧ i' ≤ code.length ∧
      (filterIdents (code.drop i) = [] → i' = code.length) := by
  obtain ⟨i', he, hf, hle, hle2, hnil⟩ :=
    pushList_spec code IDENTS (fun c hc => hc) i ins hi
  exact ⟨i', he, hf, hle, hle2, fun h => hnil h (by decide)⟩

theorem head_filterIdents_mem {code : List Nat} {c : Nat} {rest : List Nat}
    (h : filterIdents code = c :: rest) : c ∈ IDENTS := by
  have : c ∈ filterIdents code := by rw [h]; simp
  have := List.mem_filter.mp this
  simpa using this.2

theorem compilePhase1Go_succ (code : List Nat) (fuel i : Nat)
    (ins : List Instruction) :
    compilePhase1Go code (fuel + 1) i ins =
      if i < code.length then
        let p := pushAll code (i, ins)
        if i = p.1 then compilePhase1Go code fuel (p.1 + 1) p.2
        else compilePhase1Go code fuel p.1 p.2
      else ins := rfl

/-- Phase 1 computes the reference folding of the filtered stream. -/
theorem compilePhase1Go_spec (code : List Nat) :
    ∀ (fuel i : Nat) (ins : List Instruction), i ≤ code.length →
      code.length + 1 ≤ i + fuel →
    compilePhase1Go code fuel i ins =
      ins ++ fold1 (filterIdents (code.drop i)) := by
  intro fuel
  induction fuel with
  | zero => intro i ins h1 h2; omega
  | succ fuel ih =>
    intro i ins h1 h2
    by_cases hlt : i < code.length
    · obtain ⟨i', he, hf, hle, hle2, hnil⟩ := pushAll_spec code i ins h1
      have hne : i ≠ i' := by
        rcases hfse : filterIdents (code.drop i) with _ | ⟨c, rest⟩
        · have : i' = code.length := hnil hfse
          omega
        · intro heq
          have hc : c ∈ IDENTS := head_filterIdents_mem hfse
          have hprog := chew_progress IDENTS c rest hc
          rw [← hfse] at hprog
          rw [← hf, ← heq, hfse] at hprog
          simp [hfse] at hprog
      have hstep : compilePhase1Go code (fuel + 1) i ins =
          compilePhase1Go code fuel i'
            (ins ++ (chew IDENTS (filterIdents (code.drop i))).1) := by
        rw [compilePhase1Go_succ, if_pos hlt, he]
        simp only [if_neg hne]
      rw [hstep, ih i' _ hle2 (by omega), hf,
        show fold1 (filterIdents (code.drop i)) =
            (chew IDENTS (filterIdents (code.drop i))).1
              ++ fold1 ((chew IDENTS (filterIdents (code.drop i))).2)
          from chew_fold1 IDENTS _]
      simp [List.append_assoc]
    · have hfs : filterIdents (code.drop i) = [] := by
        rw [List.drop_eq_nil_of_le (by omega), filterIdents_nil]
      have hstep : compilePhase1Go code (fuel + 1) i ins = ins := by
        rw [compilePhase1Go_succ, if_neg hlt]
      rw [hstep, hfs]
      simp [fold1, fold1Go]

/-- `Compiler::compile`'s folding pass equals run-length folding of the
comment-filtered source. -/
theorem compilePhase1_spec (code : List Nat) :
    compilePhase1 code = fold1 (filterIdents code) := by
  unfold compilePhase1
  rw [compilePhase1Go_spec code (code.length + 1) 0 [] (by omega) (by omega)]
  simp

end BF

namespace BF

/-! ### Phases 2 and 3 on jump-free instruction lists -/

theorem phase2Go_no_jzp (ins : List Instruction)
    (h : ∀ a ∈ ins, a ≠ .JumpZeroPlaceholder) :
    ∀ (fuel i : Nat), phase2Go ins fuel i = ins := by
  intro fuel
  induction fuel with
  | zero => intro i; rfl
  | succ fuel ih =>
    intro i
    show (match ins.get? i with
      | none => ins
      | some a =>
        if a = .JumpZeroPlaceholder then
          phase2Go (ins.set i (.JumpZero (findMatch ins i 0 - i + 1)))
            fuel (i + 1)
        else phase2Go ins fuel (i + 1)) = ins
    rcases hg : ins.get? i with _ | a
    · rfl
    · simp only [if_neg (h a (List.get?_mem hg))]
      exact ih (i + 1)

theorem phase3Go_no_jz (ins : List Instruction)
    (h : ∀ a ∈ ins, ∀ n, a ≠ .JumpZero n) :
    ∀ (fuel i : Nat), phase3Go ins fuel i = some ins := by
  intro fuel
  induction fuel with
  | zero => intro i; rfl
  | succ fuel ih =>
    intro i
    rcases hg : ins.get? i with _ | a
    · show (match ins.get? i with
        | none => some ins
        | some a => _) = some ins
      rw [hg]
    · have hmem := List.get?_mem hg
      show (match ins.get? i with
        | none => some ins
        | some a =>
          match a with
          | .JumpZero offset => _
          | _ => phase3Go ins fuel (i + 1)) = some ins
      rw [hg]
      cases a with
      | JumpZero n => exact absurd rfl (h _ hmem n)
      | IncDP n => exact ih (i + 1)
      | DecDP n => exact ih (i + 1)
      | IncByteAtDP n => exact ih (i + 1)
      | DecByteAtDP n => exact ih (i + 1)
      | WriteByte n => exact ih (i + 1)
      | ReadByte => exact ih (i + 1)
      | JumpZeroPlaceholder => exact ih (i + 1)
      | JumpNotZero n => exact ih (i + 1)
      | JumpNotZeroPlaceholder => exact ih (i + 1)

/-- `compile` on a program whose folding contains neither placeholders
nor resolved jumps is just the folding. -/
theorem compile_of_no_jumps (code : List Nat)
    (h1 : ∀ a ∈ compilePhase1 code, a ≠ .JumpZeroPlaceholder)
    (h2 : ∀ a ∈ compilePhase1 code, ∀ n, a ≠ .JumpZero n) :
    compile code = some (compilePhase1 code) := by
  unfold compile phase2 phase3
  rw [phase2Go_no_jzp _ h1, phase3Go_no_jz _ h2]

/-! ### `fold1` on runs of a single opcode -/

theorem takeWhile_replicate_self (c : Nat) (k : Nat) :
    (List.replicate k c).takeWhile (fun d => decide (d = c)) =
      List.replicate k c := by
  induction k with
  | zero => rfl
  | succ k ih => simp [List.replicate_succ, List.takeWhile_cons, ih]

theorem dropWhile_replicate_self (c : Nat) (k : Nat) :
    (List.replicate k c).dropWhile (fun d => decide (d = c)) = [] := by
  induction k with
  | zero => rfl
  | succ k ih => simp [List.replicate_succ, List.dropWhile_cons, ih]

theorem filterIdents_replicate {c : Nat} (h : c ∈ IDENTS) (k : Nat) :
    filterIdents (List.replicate k c) = List.replicate k c := by
  induction k with
  | zero => rfl
  | succ k ih =>
    rw [List.replicate_succ, filterIdents_cons_mem h, ih]

theorem fold1_replicate_run {c : Nat}
    (hc : ¬(c = IDENT_JUMP_ZERO ∨ c = IDENT_JUMP_NOT_ZERO)) {k : Nat}
    (hk : 1 ≤ k) : fold1 (List.replicate k c) = [mkInstr c k] := by
  obtain ⟨k', rfl⟩ : ∃ k', k = k' + 1 := ⟨k - 1, by omega⟩
  rw [List.replicate_succ, fold1_cons_run _ hc, takeWhile_replicate_self,
    dropWhile_replicate_self]
  simp [fold1, fold1Go, Nat.add_comm]

theorem fold1_replicate_jump {c : Nat}
    (hc : c = IDENT_JUMP_ZERO ∨ c = IDENT_JUMP_NOT_ZERO) (k : Nat) :
    fold1 (List.replicate k c) = List.replicate k (mkInstr c 1) := by
  induction k with
  | zero => rfl
  | succ k ih =>
    rw [List.replicate_succ, fold1_cons_bracket _ hc, ih, List.replicate_succ]

/-- C5: compilation is invariant under comment filtering, and the
filter is idempotent; in particular
`compile (filter (filter s)) = compile (filter s)`. -/
theorem compile_filter_invariant (s : List Nat) :
    compile s = compile (filterIdents s) ∧
    filterIdents (filterIdents s) = filterIdents s ∧
    compile (filterIdents (filterIdents s)) = compile (filterIdents s) := by
  have hidem : filterIdents (filterIdents s) = filterIdents s := by
    simp [filterIdents, List.filter_filter]
  have hphase : compilePhase1 s = compilePhase1 (filterIdents s) := by
    rw [compilePhase1_spec, compilePhase1_spec, hidem]
  refine ⟨?_, hidem, by rw [hidem]⟩
  unfold compile
  rw [hphase]

/-- C2 amended: only the two bracket opcodes emit one instruction per
occurrence; a run of `k` Read opcodes folds into the single `ReadByte`
(losing the count) and a run of `k` Write opcodes folds into the single
`WriteByte k`. -/
theorem folding_by_opcode_class (k : Nat) (hk : 1 ≤ k) :
    compilePhase1 (List.replicate k IDENT_JUMP_ZERO) =
      List.replicate k .JumpZeroPlaceholder ∧
    compilePhase1 (List.replicate k IDENT_JUMP_NOT_ZERO) =
      List.replicate k .JumpNotZeroPlaceholder ∧
    compilePhase1 (List.replicate k IDENT_READ_BYTE) = [.ReadByte] ∧
    compilePhase1 (List.replicate k IDENT_WRITE_BYTE) = [.WriteByte k] ∧
    compilePhase1 (List.replicate k IDENT_INC_DP) = [.IncDP k] := by
  refine ⟨?_, ?_, ?_, ?_, ?_⟩
  · rw [compilePhase1_spec, filterIdents_replicate (by decide),
      fold1_replicate_jump (Or.inl rfl),
      show mkInstr IDENT_JUMP_ZERO 1 = .JumpZeroPlaceholder from rfl]
  · rw [compilePhase1_spec, filterIdents_replicate (by decide),
      fold1_replicate_jump (Or.inr rfl),
      show mkInstr IDENT_JUMP_NOT_ZERO 1 = .JumpNotZeroPlaceholder from rfl]
  · rw [compilePhase1_spec, filterIdents_replicate (by decide),
      fold1_replicate_run (by decide) hk,
      show mkInstr IDENT_READ_BYTE k = .ReadByte from rfl]
  · rw [compilePhase1_spec, filterIdents_replicate (by decide),
      fold1_replicate_run (by decide) hk,
      show mkInstr IDENT_WRITE_BYTE k = .WriteByte k from rfl]
  · rw [compilePhase1_spec, filterIdents_replicate (by decide),
      fold1_replicate_run (by decide) hk,
      show mkInstr IDENT_INC_DP k = .IncDP k from rfl]

/-- C2 amended, witnessed at `k = 2`. -/
theorem folding_by_opcode_class_witness :
    (1 ≤ 2 ∧
    compilePhase1 (List.replicate 2 IDENT_JUMP_ZERO) =
      List.replicate 2 .JumpZeroPlaceholder ∧
    compilePhase1 (List.replicate 2 IDENT_JUMP_NOT_ZERO) =
      List.replicate 2 .JumpNotZeroPlaceholder ∧
    compilePhase1 (List.replicate 2 IDENT_READ_BYTE) = [.ReadByte] ∧
    compilePhase1 (List.replicate 2 IDENT_WRITE_BYTE) = [.WriteByte 2] ∧
    compilePhase1 (List.replicate 2 IDENT_INC_DP) = [.IncDP 2]) :=
  ⟨by decide, folding_by_opcode_class 2 (by decide)⟩

end BF

namespace BF

theorem compile_replicate_reads {k : Nat} (hk : 1 ≤ k) :
    compile (List.replicate k IDENT_READ_BYTE) = some [.ReadByte] := by
  have hp : compilePhase1 (List.replicate k IDENT_READ_BYTE) = [.ReadByte] := by
    rw [compilePhase1_spec, filterIdents_replicate (by decide),
      fold1_replicate_run (by decide) hk]
    rfl
  rw [compile_of_no_jumps _ (by rw [hp]; decide)
    (by rw [hp]; intro a ha n; simp at ha; simp [ha]), hp]

theorem compile_replicate_incdp {k : Nat} (hk : 1 ≤ k) :
    compile (List.replicate k IDENT_INC_DP) = some [.IncDP k] := by
  have hp : compilePhase1 (List.replicate k IDENT_INC_DP) = [.IncDP k] := by
    rw [compilePhase1_spec, filterIdents_replicate (by decide),
      fold1_replicate_run (by decide) hk]
    rfl
  rw [compile_of_no_jumps _
    (by rw [hp]; intro a ha; simp at ha; simp [ha])
    (by rw [hp]; intro a ha n; simp at ha; simp [ha]), hp]

/-- C1 amended: the output-equality between the interpreter and the VM
fails because the compiler folds a run of `k` consecutive `Read` opcodes
into the single `ReadByte`: for every `k ≥ 1` and input stream of at
least `k` bytes, the interpreter run over the `k` reads consumes `k`
input bytes while the VM run over the compiled program consumes exactly
one. -/
theorem read_run_consumption (k : Nat) (hk : 1 ≤ k) (s : List Nat)
    (hs : k ≤ s.length) :
    compile (List.replicate k IDENT_READ_BYTE) = some [.ReadByte] ∧
    (∃ d', interpRun (List.replicate k IDENT_READ_BYTE) .Disabled (k + 1)
        (initState s) =
      .ok { ip := k, data := d', dp := 0, input := s.drop k, output := [] }) ∧
    (∃ d', vmRun [.ReadByte] .Disabled 2 (initState s) =
      .ok { ip := 1, data := d', dp := 0, input := s.drop 1,
            output := [] }) := by
  refine ⟨compile_replicate_reads hk, ?_, ?_⟩
  · have := interpRun_reads k k 0 0 (k + 1) (fun _ => 0) s []
      (Nat.zero_add k) hs le_rfl
    simpa using this
  · obtain ⟨b, rest, rfl⟩ : ∃ b rest, s = b :: rest := by
      cases s with
      | nil => simp at hs; omega
      | cons b rest => exact ⟨b, rest, rfl⟩
    exact ⟨updateCell (fun _ => 0) 0 (b % 256), rfl⟩

/-- C1 amended, witnessed at `k = 2`, `s = [1, 2]`. -/
theorem read_run_consumption_witness :
    (1 ≤ 2 ∧ 2 ≤ ([1, 2] : List Nat).length) ∧
    (compile (List.replicate 2 IDENT_READ_BYTE) = some [.ReadByte] ∧
    (∃ d', interpRun (List.replicate 2 IDENT_READ_BYTE) .Disabled 3
        (initState [1, 2]) =
      .ok { ip := 2, data := d', dp := 0, input := ([1, 2] : List Nat).drop 2,
            output := [] }) ∧
    (∃ d', vmRun [.ReadByte] .Disabled 2 (initState [1, 2]) =
      .ok { ip := 1, data := d', dp := 0, input := ([1, 2] : List Nat).drop 1,
            output := [] })) :=
  ⟨⟨by decide, by decide⟩, read_run_consumption 2 (by decide) [1, 2] (by decide)⟩

/-- C6: tape-size boundary.  30000 consecutive `>` from DP 0 fault (the
interpreter faults on the raw source, and the compiled program — the
single folded `IncDP 30000` — faults on the VM), while 29999 complete
and leave DP = 29999 under both backends. -/
theorem tape_size_boundary :
    interpRun (List.replicate 30000 IDENT_INC_DP) .Disabled 30001
      (initState []) = .fault ∧
    interpRun (List.replicate 29999 IDENT_INC_DP) .Disabled 30000
        (initState []) =
      .ok { ip := 29999, data := fun _ => 0, dp := 29999, input := [],
            output := [] } ∧
    compile (List.replicate 30000 IDENT_INC_DP) = some [.IncDP 30000] ∧
    vmRun [.IncDP 30000] .Disabled 2 (initState []) = .fault ∧
    compile (List.replicate 29999 IDENT_INC_DP) = some [.IncDP 29999] ∧
    vmRun [.IncDP 29999] .Disabled 2 (initState []) =
      .ok { ip := 1, data := fun _ => 0, dp := 29999, input := [],
            output := [] } := by
  refine ⟨?_, ?_, compile_replicate_incdp (by omega), ?_,
    compile_replicate_incdp (by omega), ?_⟩
  · exact interpRun_adv_fault 30000 30000 0 0 30001 (fun _ => 0) [] []
      rfl (by decide) (by decide) le_rfl
  · have := interpRun_adv_ok 29999 29999 0 0 30000 (fun _ => 0) [] []
      (Nat.zero_add _) (by decide) le_rfl
    rw [Nat.zero_add] at this
    exact this
  · rfl
  · rfl

end BF

namespace BF

/-! ### Bracket-depth theory for the jump-linking passes (C4)

`Compiler::compile`'s phases 2 and 3 pair `JumpZeroPlaceholder` /
`JumpNotZeroPlaceholder` like brackets.  We measure nesting depth with
an integer-valued prefix sum `D` and derive the matched-bracket facts
needed to characterise both passes on bracket-balanced programs. -/

/-- Bracket weight of an instruction in the phase-2 balance scan. -/
def brInt : Instruction → Int
  | .JumpZeroPlaceholder => 1
  | .JumpNotZeroPlaceholder => -1
  | _ => 0

/-- Bracket content of an instruction (`true` = opener). -/
def brOpt : Instruction → Option Bool
  | .JumpZeroPlaceholder => some true
  | .JumpNotZeroPlaceholder => some false
  | _ => none

/-- Bracket content of a source byte. -/
def brChar (c : Nat) : Option Bool :=
  if c = IDENT_JUMP_ZERO then some true
  else if c = IDENT_JUMP_NOT_ZERO then some false
  else none

/-- Bracket sequence of an instruction list. -/
def profile (ins : List Instruction) : List Bool := ins.filterMap brOpt

/-- Bracket sequence of a source byte string. -/
def srcProfile (code : List Nat) : List Bool := code.filterMap brChar

/-- Dyck-word check for a bracket sequence, running depth in `d`. -/
def balGo : List Bool → Nat → Bool
  | [], d => d = 0
  | true :: r, d => balGo r (d + 1)
  | false :: r, d => if d = 0 then false else balGo r (d - 1)

/-- The balance predicate of the spec: brackets nest and close. -/
def balancedB (l : List Bool) : Bool := balGo l 0

/-- Nesting depth of instruction list `ins` before position `k`. -/
def D (ins : List Instruction) (k : Nat) : Int :=
  ((ins.take k).map brInt).sum

theorem D_zero (ins : List Instruction) : D ins 0 = 0 := rfl

theorem D_cons (a : Instruction) (rest : List Instruction) (k : Nat) :
    D (a :: rest) (k + 1) = brInt a + D rest k := by
  simp [D, List.take_succ_cons]

theorem D_succ_get {ins : List Instruction} {k : Nat} {a : Instruction}
    (h : ins.get? k = some a) : D ins (k + 1) = D ins k + brInt a := by
  have hk : k < ins.length := by
    rcases List.get?_eq_some.mp h with ⟨h', _⟩
    exact h'
  have ha : ins.get ⟨k, hk⟩ = a := by
    rcases List.get?_eq_some.mp h with ⟨h', he⟩
    exact he
  rw [D, D, List.take_succ, List.map_append, List.sum_append]
  rw [show ins[k]? = some a from by rw [← List.get?_eq_getElem?]; exact h]
  simp

theorem D_stable {ins : List Instruction} {k : Nat} (h : ins.length ≤ k) :
    D ins k = D ins ins.length := by
  rw [D, D, List.take_of_length_le h, List.take_length]

theorem brInt_le (a : Instruction) : brInt a ≤ 1 := by
  cases a <;> simp [brInt]

theorem neg_le_brInt (a : Instruction) : -1 ≤ brInt a := by
  cases a <;> simp [brInt]

theorem brInt_eq_one {a : Instruction} (h : brInt a = 1) :
    a = .JumpZeroPlaceholder := by
  cases a <;> simp [brInt] at h <;> rfl

theorem brInt_eq_neg_one {a : Instruction} (h : brInt a = -1) :
    a = .JumpNotZeroPlaceholder := by
  cases a <;> simp [brInt] at h <;> rfl

theorem D_step_le {ins : List Instruction} (k : Nat) :
    D ins (k + 1) ≤ D ins k + 1 := by
  rcases hg : ins.get? k with _ | a
  · rw [D_stable (List.get?_eq_none.mp hg),
      D_stable (le_trans (List.get?_eq_none.mp hg) (Nat.le_succ k))]
    omega
  · rw [D_succ_get hg]
    have := brInt_le a
    omega

theorem D_step_ge {ins : List Instruction} (k : Nat) :
    D ins k - 1 ≤ D ins (k + 1) := by
  rcases hg : ins.get? k with _ | a
  · rw [D_stable (List.get?_eq_none.mp hg),
      D_stable (le_trans (List.get?_eq_none.mp hg) (Nat.le_succ k))]
    omega
  · rw [D_succ_get hg]
    have := neg_le_brInt a
    omega

/-- A `true` bracket in the profile comes from a `JumpZeroPlaceholder`,
and so on; transfer `balancedB` of the profile to the depth function. -/
theorem balanced_of_profile :
    ∀ (ins : List Instruction) (d : Nat), balGo (profile ins) d = true →
    (∀ k, 0 ≤ (d : Int) + D ins k) ∧ (d : Int) + D ins ins.length = 0 := by
  intro ins
  induction ins with
  | nil =>
    intro d h
    simp [balGo, profile] at h
    subst h
    exact ⟨fun k => by simp [D], by simp [D]⟩
  | cons a rest ih =>
    intro d h
    rcases ha : brOpt a with _ | b
    · have hb : brInt a = 0 := by
        cases a <;> simp [brOpt] at ha <;> simp [brInt]
      have hpr : profile (a :: rest) = profile rest := by
        simp [profile, List.filterMap_cons, ha]
      rw [hpr] at h
      obtain ⟨h1, h2⟩ := ih d h
      constructor
      · intro k
        cases k with
        | zero => simp [D]
        | succ k => rw [D_cons, hb]; simpa using h1 k
      · show (d : Int) + D (a :: rest) (rest.length + 1) = 0
        rw [D_cons, hb]
        simpa using h2
    · cases b
      · -- closer
        have haa : a = .JumpNotZeroPlaceholder := by
          cases a <;> simp [brOpt] at ha <;> rfl
        have hb : brInt a = -1 := by rw [haa]; rfl
        have hpr : profile (a :: rest) = false :: profile rest := by
          simp [profile, List.filterMap_cons, ha]
        rw [hpr] at h
        have hd : d ≠ 0 := by
          intro h0
          subst h0
          simp [balGo] at h
        have h' : balGo (profile rest) (d - 1) = true := by
          simpa [balGo, hd] using h
        obtain ⟨h1, h2⟩ := ih (d - 1) h'
        constructor
        · intro k
          cases k with
          | zero => simp [D]
          | succ k =>
            rw [D_cons, hb]
            have := h1 k
            omega
        · show (d : Int) + D (a :: rest) (rest.length + 1) = 0
          rw [D_cons, hb]
          have : ((d - 1 : Nat) : Int) + D rest rest.length = 0 := by
            simpa using h2
          omega
      · -- opener
        have haa : a = .JumpZeroPlaceholder := by
          cases a <;> simp [brOpt] at ha <;> rfl
        have hb : brInt a = 1 := by rw [haa]; rfl
        have hpr : profile (a :: rest) = true :: profile rest := by
          simp [profile, List.filterMap_cons, ha]
        rw [hpr] at h
        have h' : balGo (profile rest) (d + 1) = true := by
          simpa [balGo] using h
        obtain ⟨h1, h2⟩ := ih (d + 1) h'
        constructor
        · intro k
          cases k with
          | zero => simp [D]
          | succ k =>
            rw [D_cons, hb]
            have := h1 k
            omega
        · show (d : Int) + D (a :: rest) (rest.length + 1) = 0
          rw [D_cons, hb]
          have : ((d + 1 : Nat) : Int) + D rest rest.length = 0 := by
            simpa using h2
          omega

/-- The balance facts used throughout: depth never negative, zero at the
end. -/
theorem balanced_depth {ins : List Instruction}
    (h : balancedB (profile ins) = true) :
    (∀ k, 0 ≤ D ins k) ∧ D ins ins.length = 0 := by
  obtain ⟨h1, h2⟩ := balanced_of_profile ins 0 h
  exact ⟨fun k => by simpa using h1 k, by simpa using h2⟩

end BF

namespace BF

theorem brOpt_mkInstr_none {c : Nat} (h1 : c ≠ IDENT_JUMP_ZERO)
    (h2 : c ≠ IDENT_JUMP_NOT_ZERO) (k : Nat) :
    brOpt (mkInstr c k) = none := by
  unfold mkInstr
  split_ifs <;> simp_all [brOpt]

theorem mkInstr_not_resolved (c k : Nat) :
    (∀ n, mkInstr c k ≠ .JumpZero n) ∧
    (∀ n, mkInstr c k ≠ .JumpNotZero n) := by
  unfold mkInstr
  split_ifs <;> simp

theorem brChar_none_of_run {c : Nat}
    (h1 : c ≠ IDENT_JUMP_ZERO) (h2 : c ≠ IDENT_JUMP_NOT_ZERO) :
    brChar c = none := by
  simp [brChar, h1, h2]

theorem srcProfile_append_run {c : Nat} (h1 : c ≠ IDENT_JUMP_ZERO)
    (h2 : c ≠ IDENT_JUMP_NOT_ZERO) :
    ∀ (l₁ l₂ : List Nat), (∀ x ∈ l₁, x = c) →
    srcProfile (l₁ ++ l₂) = srcProfile l₂ := by
  intro l₁
  induction l₁ with
  | nil => intro l₂ _; rfl
  | cons x l₁ ih =>
    intro l₂ hall
    have hx : x = c := hall x (by simp)
    subst hx
    show srcProfile (x :: (l₁ ++ l₂)) = _
    rw [srcProfile, List.filterMap_cons, brChar_none_of_run h1 h2]
    exact ih l₂ (fun y hy => hall y (by simp [hy]))

/-- The brackets of the folded stream are exactly the brackets of the
filtered source. -/
theorem profile_fold1 : ∀ (n : Nat) (fs : List Nat), fs.length ≤ n →
    profile (fold1 fs) = srcProfile fs := by
  intro n
  induction n with
  | zero =>
    intro fs h
    obtain rfl : fs = [] := List.eq_nil_of_length_eq_zero (by omega)
    rfl
  | succ n ih =>
    intro fs h
    cases fs with
    | nil => rfl
    | cons c rest =>
      by_cases hj : c = IDENT_JUMP_ZERO ∨ c = IDENT_JUMP_NOT_ZERO
      · rcases hj with hj | hj
        · subst hj
          rw [fold1_cons_bracket _ (Or.inl rfl)]
          have ih' := ih rest (by simpa using h)
          simp only [profile, srcProfile] at ih' ⊢
          simp only [List.filterMap_cons,
            show brOpt (mkInstr IDENT_JUMP_ZERO 1) = some true from rfl,
            show brChar IDENT_JUMP_ZERO = some true from rfl, ih']
        · subst hj
          rw [fold1_cons_bracket _ (Or.inr rfl)]
          have ih' := ih rest (by simpa using h)
          simp only [profile, srcProfile] at ih' ⊢
          simp only [List.filterMap_cons,
            show brOpt (mkInstr IDENT_JUMP_NOT_ZERO 1) = some false from rfl,
            show brChar IDENT_JUMP_NOT_ZERO = some false from rfl, ih']
      · push_neg at hj
        rw [fold1_cons_run _ (by tauto)]
        have hsplit : srcProfile (c :: rest) =
            srcProfile (rest.dropWhile fun d => decide (d = c)) := by
          have hdecomp : (c :: rest) =
              ((c :: rest.takeWhile fun d => decide (d = c)) ++
               rest.dropWhile fun d => decide (d = c)) := by
            simp [List.takeWhile_append_dropWhile]
          rw [hdecomp]
          refine srcProfile_append_run hj.1 hj.2 _ _ ?_
          intro x hx
          rcases List.mem_cons.mp hx with h' | h'
          · exact h'
          · have := List.mem_takeWhile_imp h'
            simpa using this
        have ih' := ih (rest.dropWhile fun d => decide (d = c))
          (le_trans (List.dropWhile_sublist _).length_le (by simpa using h))
        simp only [profile, List.filterMap_cons,
          brOpt_mkInstr_none hj.1 hj.2]
        rw [hsplit]
        simp only [profile, srcProfile] at ih'
        rw [ih']
        rfl

theorem srcProfile_filterIdents (p : List Nat) :
    srcProfile (filterIdents p) = srcProfile p := by
  induction p with
  | nil => rfl
  | cons c rest ih =>
    have ih' : List.filterMap brChar (filterIdents rest) =
        List.filterMap brChar rest := ih
    by_cases hc : c ∈ IDENTS
    · rw [filterIdents_cons_mem hc]
      show srcProfile (c :: filterIdents rest) = srcProfile (c :: rest)
      rcases hbc : brChar c with _ | b <;>
        simp only [srcProfile, List.filterMap_cons, hbc, ih']
    · have hnone : brChar c = none := by
        refine brChar_none_of_run ?_ ?_ <;>
          (intro h; subst h; exact hc (by decide))
      rw [filterIdents_cons_not_mem hc]
      show srcProfile (filterIdents rest) = srcProfile (c :: rest)
      simp only [srcProfile, List.filterMap_cons, hnone, ih']

/-- `fold1` never produces resolved jump instructions. -/
theorem fold1_not_resolved : ∀ (n : Nat) (fs : List Nat), fs.length ≤ n →
    ∀ a ∈ fold1 fs, (∀ m, a ≠ .JumpZero m) ∧ (∀ m, a ≠ .JumpNotZero m) := by
  intro n
  induction n with
  | zero =>
    intro fs h
    obtain rfl : fs = [] := List.eq_nil_of_length_eq_zero (by omega)
    intro a ha
    simp [fold1, fold1Go] at ha
  | succ n ih =>
    intro fs h
    cases fs with
    | nil => intro a ha; simp [fold1, fold1Go] at ha
    | cons c rest =>
      by_cases hj : c = IDENT_JUMP_ZERO ∨ c = IDENT_JUMP_NOT_ZERO
      · rw [fold1_cons_bracket _ hj]
        intro a ha
        rcases List.mem_cons.mp ha with h' | h'
        · subst h'
          exact mkInstr_not_resolved c 1
        · exact ih rest (by simpa using h) a h'
      · rw [fold1_cons_run _ hj]
        intro a ha
        rcases List.mem_cons.mp ha with h' | h'
        · subst h'
          exact mkInstr_not_resolved c _
        · exact ih (rest.dropWhile fun d => decide (d = c))
            (le_trans (List.dropWhile_sublist _).length_le (by simpa using h))
            a h'

/-- Discrete upward intermediate-value property of the depth. -/
theorem ivt_up (ins : List Instruction) :
    ∀ (n a b : Nat) (t : Int), b - a ≤ n → a ≤ b → D ins a ≤ t →
      t < D ins b → ∃ m, a ≤ m ∧ m < b ∧ D ins m = t := by
  intro n
  induction n with
  | zero =>
    intro a b t hn hab h1 h2
    obtain rfl : a = b := by omega
    omega
  | succ n ih =>
    intro a b t hn hab h1 h2
    have hne : a ≠ b := by
      intro h
      subst h
      omega
    by_cases heq : D ins a = t
    · exact ⟨a, le_rfl, by omega, heq⟩
    · have h1' : D ins (a + 1) ≤ t := by
        have := @D_step_le ins a
        omega
      obtain ⟨m, hm1, hm2, hm3⟩ := ih (a + 1) b t (by omega) (by omega) h1' h2
      exact ⟨m, by omega, hm2, hm3⟩

end BF

namespace BF

theorem findMatchGo_none {ins : List Instruction} {j : Nat}
    (hget : ins.get? j = none) (fuel : Nat) (c : Int) :
    findMatchGo ins (fuel + 1) j c = j := by
  show (match ins.get? j with
    | none => j
    | some a =>
      let jumps' : Int :=
        match a with
        | .JumpZeroPlaceholder => c + 1
        | .JumpNotZeroPlaceholder => c - 1
        | _ => c
      if jumps' = 0 then j else findMatchGo ins fuel (j + 1) jumps') = j
  rw [hget]

theorem findMatchGo_step {ins : List Instruction} {j : Nat} {a : Instruction}
    (hget : ins.get? j = some a) (fuel : Nat) (c : Int) :
    findMatchGo ins (fuel + 1) j c =
      if c + brInt a = 0 then j else findMatchGo ins fuel (j + 1) (c + brInt a) := by
  show (match ins.get? j with
    | none => j
    | some a =>
      let jumps' : Int :=
        match a with
        | .JumpZeroPlaceholder => c + 1
        | .JumpNotZeroPlaceholder => c - 1
        | _ => c
      if jumps' = 0 then j else findMatchGo ins fuel (j + 1) jumps') = _
  rw [hget]
  cases a <;> simp [brInt] <;> ring_nf

/-- The phase-2 balance scan, started at `p` with the running weight, is
determined by the depth function: it stops at the first index whose
depth returns to the start depth. -/
theorem findMatchGo_first {ins : List Instruction} {i j : Nat}
    (hj : j < ins.length) (hhit : D ins (j + 1) = D ins i)
    (hbefore : ∀ k, i ≤ k → k < j → D ins (k + 1) ≠ D ins i) :
    ∀ (fuel p : Nat), i ≤ p → p ≤ j → ins.length - p ≤ fuel →
    findMatchGo ins fuel p (D ins p - D ins i) = j := by
  intro fuel
  induction fuel with
  | zero => intro p h1 h2 h3; omega
  | succ fuel ih =>
    intro p h1 h2 h3
    have hp : p < ins.length := by omega
    rcases hga : ins.get? p with _ | a
    · exact absurd (List.get?_eq_none.mp hga) (by omega)
    · rw [findMatchGo_step hga]
      have hDp : D ins (p + 1) = D ins p + brInt a := D_succ_get hga
      by_cases hpj : p = j
      · subst hpj
        rw [if_pos (by omega)]
      · have hne : D ins (p + 1) ≠ D ins i := hbefore p h1 (by omega)
        rw [if_neg (by omega)]
        have := ih (p + 1) (by omega) (by omega) (by omega)
        rw [show D ins p - D ins i + brInt a = D ins (p + 1) - D ins i
          from by omega] at *
        exact this

theorem findMatch_eq_first {ins : List Instruction} {i j : Nat}
    (hij : i ≤ j) (hj : j < ins.length)
    (hhit : D ins (j + 1) = D ins i)
    (hbefore : ∀ k, i ≤ k → k < j → D ins (k + 1) ≠ D ins i) :
    findMatch ins i 0 = j := by
  have := findMatchGo_first hj hhit hbefore (ins.length - i) i le_rfl hij le_rfl
  rw [show D ins i - D ins i = 0 from by omega] at this
  exact this

theorem findMatchGo_congr {ins₁ ins₂ : List Instruction} {j₀ : Nat}
    (h : ∀ k, j₀ ≤ k → ins₁.get? k = ins₂.get? k) :
    ∀ (fuel j : Nat) (c : Int), j₀ ≤ j →
    findMatchGo ins₁ fuel j c = findMatchGo ins₂ fuel j c := by
  intro fuel
  induction fuel with
  | zero => intro j c _; rfl
  | succ fuel ih =>
    intro j c hjj
    rcases hg : ins₁.get? j with _ | a
    · rw [findMatchGo_none hg, findMatchGo_none (by rw [← h j hjj]; exact hg)]
    · rw [findMatchGo_step hg,
        findMatchGo_step (show ins₂.get? j = some a from by
          rw [← h j hjj]; exact hg)]
      by_cases hz : c + brInt a = 0
      · rw [if_pos hz, if_pos hz]
      · rw [if_neg hz, if_neg hz]
        exact ih (j + 1) _ (by omega)

theorem findMatch_congr {ins₁ ins₂ : List Instruction} {j : Nat} (c : Int)
    (hlen : ins₁.length = ins₂.length)
    (h : ∀ k, j ≤ k → ins₁.get? k = ins₂.get? k) :
    findMatch ins₁ j c = findMatch ins₂ j c := by
  unfold findMatch
  rw [hlen]
  exact findMatchGo_congr h _ j c le_rfl

/-- The opener paired with a closer by the two linking passes. -/
def opener (ins : List Instruction) (j : Nat) : Nat :=
  Nat.findGreatest (fun i => D ins i = D ins (j + 1)) j

/-- Every `JumpZeroPlaceholder` of a balanced list has a strictly later
matching `JumpNotZeroPlaceholder`, found by the phase-2 scan, with the
depth strictly above the start depth in between. -/
theorem open_spec {ins : List Instruction} (hnn : ∀ k, 0 ≤ D ins k)
    (h0 : D ins ins.length = 0) {i : Nat}
    (hi : ins.get? i = some .JumpZeroPlaceholder) :
    ∃ j, findMatch ins i 0 = j ∧ i < j ∧ j < ins.length ∧
      ins.get? j = some .JumpNotZeroPlaceholder ∧
      D ins (j + 1) = D ins i ∧
      (∀ k, i < k → k ≤ j → D ins i < D ins k) := by
  have hilen : i < ins.length := by
    rcases List.get?_eq_some.mp hi with ⟨h, _⟩
    exact h
  have hDi1 : D ins (i + 1) = D ins i + 1 := by
    rw [D_succ_get hi]
    rfl
  have hex : ∃ m, i ≤ m ∧ m < ins.length ∧ D ins (m + 1) ≤ D ins i := by
    refine ⟨ins.length - 1, by omega, by omega, ?_⟩
    rw [show ins.length - 1 + 1 = ins.length from by omega, h0]
    exact hnn i
  obtain ⟨J, hJspec, hmin⟩ :
      ∃ J, (i ≤ J ∧ J < ins.length ∧ D ins (J + 1) ≤ D ins i) ∧
        ∀ k, k < J → ¬(i ≤ k ∧ k < ins.length ∧ D ins (k + 1) ≤ D ins i) :=
    ⟨Nat.find hex, Nat.find_spec hex, fun k hk => Nat.find_min hex hk⟩
  obtain ⟨hJ1, hJ2, hJ3⟩ := hJspec
  have hJi : i < J := by
    rcases Nat.lt_or_ge i J with h | h
    · exact h
    · obtain rfl : J = i := by omega
      omega
  have hmono : ∀ k, i ≤ k → k < J → D ins i < D ins (k + 1) := by
    intro k hk1 hk2
    have := hmin k hk2
    have hklen : k < ins.length := by omega
    omega
  have hinner : ∀ k, i < k → k ≤ J → D ins i < D ins k := by
    intro k hk1 hk2
    have := hmono (k - 1) (by omega) (by omega)
    rw [show k - 1 + 1 = k from by omega] at this
    exact this
  have hDJ1 : D ins (J + 1) = D ins i := by
    have h1 : D ins i < D ins J := hinner J hJi le_rfl
    have h2 := @D_step_ge ins J
    omega
  rcases hga : ins.get? J with _ | a
  · exact absurd (List.get?_eq_none.mp hga) (by omega)
  · have hBa : brInt a = -1 := by
      have := D_succ_get hga
      have h1 : D ins i < D ins J := hinner J hJi le_rfl
      have h2 := neg_le_brInt a
      omega
    have haJ : a = .JumpNotZeroPlaceholder := brInt_eq_neg_one hBa
    subst haJ
    refine ⟨J, ?_, hJi, hJ2, hga, hDJ1, hinner⟩
    exact findMatch_eq_first (by omega) hJ2 hDJ1
      (fun k hk1 hk2 => by have := hmono k hk1 hk2; omega)

/-- Every `JumpNotZeroPlaceholder` of a balanced list has a strictly
earlier opener, and the phase-2 scan from that opener lands exactly on
it. -/
theorem close_spec {ins : List Instruction} (hnn : ∀ k, 0 ≤ D ins k)
    (h0 : D ins ins.length = 0) {j : Nat}
    (hj : ins.get? j = some .JumpNotZeroPlaceholder) :
    ins.get? (opener ins j) = some .JumpZeroPlaceholder ∧
    opener ins j < j ∧ findMatch ins (opener ins j) 0 = j := by
  have hjlen : j < ins.length := by
    rcases List.get?_eq_some.mp hj with ⟨h, _⟩
    exact h
  have hDj : D ins (j + 1) = D ins j - 1 := by
    rw [D_succ_get hj]
    rfl
  obtain ⟨m, hm1, hm2, hm3⟩ := ivt_up ins j 0 j (D ins (j + 1)) (by omega)
    (by omega) (by rw [D_zero]; exact hnn (j + 1)) (by omega)
  have hPO : D ins (opener ins j) = D ins (j + 1) := by
    exact Nat.findGreatest_spec (P := fun i => D ins i = D ins (j + 1))
      (by omega : m ≤ j) hm3
  have hOle : opener ins j ≤ j := by
    unfold opener
    exact Nat.findGreatest_le j
  have hgreatest : ∀ k, opener ins j < k → k ≤ j →
      ¬(D ins k = D ins (j + 1)) := by
    unfold opener
    exact fun k hk1 hk2 => Nat.findGreatest_is_greatest hk1 hk2
  have hOj : opener ins j < j := by
    rcases Nat.lt_or_ge (opener ins j) j with h | h
    · exact h
    · obtain heq : opener ins j = j := by omega
      rw [heq] at hPO
      omega
  have habove : ∀ k, opener ins j < k → k ≤ j → D ins (j + 1) < D ins k := by
    intro k hk1 hk2
    by_contra hle
    push_neg at hle
    rcases eq_or_lt_of_le hle with heq | hlt
    · exact hgreatest k hk1 hk2 heq
    · obtain ⟨m', hm'1, hm'2, hm'3⟩ := ivt_up ins j k j (D ins (j + 1))
        (by omega) (by omega) (by omega) (by omega)
      exact hgreatest m' (by omega) (by omega) hm'3
  rcases hga : ins.get? (opener ins j) with _ | a
  · exact absurd (List.get?_eq_none.mp hga) (by omega)
  · have hBa : brInt a = 1 := by
      have hstep := D_succ_get hga
      have h1 : D ins (j + 1) < D ins (opener ins j + 1) :=
        habove (opener ins j + 1) (by omega) (by omega)
      have h2 := brInt_le a
      omega
    have haO : a = .JumpZeroPlaceholder := brInt_eq_one hBa
    subst haO
    refine ⟨rfl, hOj, ?_⟩
    refine findMatch_eq_first (by omega) hjlen (by omega) ?_
    intro k hk1 hk2
    have := habove (k + 1) (by omega) (by omega)
    omega

/-- The two scans invert each other: the opener of the closer found for
an opener `i` is `i` itself. -/
theorem opener_findMatch {ins : List Instruction} (hnn : ∀ k, 0 ≤ D ins k)
    (h0 : D ins ins.length = 0) {i : Nat}
    (hi : ins.get? i = some .JumpZeroPlaceholder) :
    opener ins (findMatch ins i 0) = i := by
  obtain ⟨j, hfm, hij, hjlen, hja, hDj, hinner⟩ := open_spec hnn h0 hi
  rw [hfm]
  unfold opener
  rw [Nat.findGreatest_eq_iff]
  refine ⟨by omega, fun _ => by omega, ?_⟩
  intro k hk1 hk2
  have := hinner k hk1 hk2
  omega

end BF

namespace BF

/-- What phase 2 produces at position `k`. -/
def p2target (ins0 : List Instruction) (k : Nat) : Option Instruction :=
  (ins0.get? k).map fun a =>
    if a = .JumpZeroPlaceholder then
      .JumpZero (findMatch ins0 k 0 - k + 1)
    else a

theorem phase2Go_length :
    ∀ (fuel i : Nat) (cur : List Instruction),
    (phase2Go cur fuel i).length = cur.length := by
  intro fuel
  induction fuel with
  | zero => intro i cur; rfl
  | succ fuel ih =>
    intro i cur
    show (match cur.get? i with
      | none => cur
      | some a =>
        if a = Instruction.JumpZeroPlaceholder then
          phase2Go (cur.set i (Instruction.JumpZero (findMatch cur i 0 - i + 1)))
            fuel (i + 1)
        else phase2Go cur fuel (i + 1)).length = cur.length
    rcases hg : cur.get? i with _ | a
    · rfl
    · by_cases ha : a = Instruction.JumpZeroPlaceholder
      · simp only [if_pos ha, ih]
        simp
      · simp only [if_neg ha, ih]

theorem phase2Go_pointwise (ins0 : List Instruction) :
    ∀ (fuel i : Nat) (cur : List Instruction),
      cur.length = ins0.length →
      (∀ k, i ≤ k → cur.get? k = ins0.get? k) →
      (∀ k, k < i → cur.get? k = p2target ins0 k) →
      ins0.length - i ≤ fuel →
      ∀ k, (phase2Go cur fuel i).get? k = p2target ins0 k := by
  intro fuel
  induction fuel with
  | zero =>
    intro i cur hlen h2 h3 hf k
    show cur.get? k = p2target ins0 k
    rcases Nat.lt_or_ge k i with hk | hk
    · exact h3 k hk
    · rw [h2 k hk]
      have hnone : ins0.get? k = none :=
        List.get?_eq_none.mpr (by omega)
      unfold p2target
      rw [hnone]
      rfl
  | succ fuel ih =>
    intro i cur hlen h2 h3 hf k
    show (match cur.get? i with
      | none => cur
      | some a =>
        if a = Instruction.JumpZeroPlaceholder then
          phase2Go (cur.set i (Instruction.JumpZero (findMatch cur i 0 - i + 1)))
            fuel (i + 1)
        else phase2Go cur fuel (i + 1)).get? k = p2target ins0 k
    rcases hg : cur.get? i with _ | a
    · have hilen : cur.length ≤ i := List.get?_eq_none.mp hg
      rcases Nat.lt_or_ge k i with hk | hk
      · exact h3 k hk
      · rw [h2 k hk]
        have hnone : ins0.get? k = none :=
          List.get?_eq_none.mpr (by omega)
        unfold p2target
        rw [hnone]
        rfl
    · have hins0i : ins0.get? i = some a := by rw [← h2 i le_rfl]; exact hg
      have hilen : i < cur.length := by
        rcases List.get?_eq_some.mp hg with ⟨h, _⟩
        exact h
      by_cases ha : a = Instruction.JumpZeroPlaceholder
      · simp only [if_pos ha]
        have hfm : findMatch cur i 0 = findMatch ins0 i 0 :=
          findMatch_congr 0 hlen h2
        refine ih (i + 1) _ (by simp [hlen]) ?_ ?_ (by omega) k
        · intro k' hk'
          rw [List.get?_set_ne _ _ (by omega)]
          exact h2 k' (by omega)
        · intro k' hk'
          rcases Nat.lt_or_ge k' i with hki | hki
          · rw [List.get?_set_ne _ _ (by omega)]
            exact h3 k' hki
          · obtain rfl : i = k' := by omega
            have hset : (cur.set i
                (Instruction.JumpZero (findMatch ins0 i 0 - i + 1))).get? i =
                some (Instruction.JumpZero (findMatch ins0 i 0 - i + 1)) := by
              simp [List.get?_set_eq, hilen]
            rw [hfm, hset]
            unfold p2target
            rw [hins0i]
            simp [ha]
      · simp only [if_neg ha]
        refine ih (i + 1) _ hlen (fun k' hk' => h2 k' (by omega)) ?_
          (by omega) k
        intro k' hk'
        rcases Nat.lt_or_ge k' i with hki | hki
        · exact h3 k' hki
        · obtain rfl : k' = i := by omega
          rw [hg]
          unfold p2target
          rw [hins0i]
          simp [ha]

theorem phase2_pointwise (ins0 : List Instruction) (k : Nat) :
    (phase2 ins0).get? k = p2target ins0 k := by
  unfold phase2
  exact phase2Go_pointwise ins0 ins0.length 0 ins0 rfl
    (fun _ _ => rfl) (fun k hk => by omega) (by omega) k

theorem phase2_length (ins0 : List Instruction) :
    (phase2 ins0).length = ins0.length :=
  phase2Go_length ins0.length 0 ins0

end BF

namespace BF

/-- The state of the instruction list while phase 3 processes index `i`:
openers already rewritten by phase 2, closers rewritten once their
opener has been processed. -/
def p3inv (ins0 : List Instruction) (i k : Nat) : Option Instruction :=
  (ins0.get? k).map fun a =>
    if a = .JumpZeroPlaceholder then
      .JumpZero (findMatch ins0 k 0 - k + 1)
    else if a = .JumpNotZeroPlaceholder then
      (if opener ins0 k < i then .JumpNotZero (k - opener ins0 k - 1)
       else .JumpNotZeroPlaceholder)
    else a

theorem opener_le (ins0 : List Instruction) (k : Nat) :
    opener ins0 k ≤ k := by
  unfold opener
  exact Nat.findGreatest_le k

theorem p3inv_ge_len {ins0 : List Instruction} {i : Nat}
    (hi : ins0.length ≤ i) (k : Nat) :
    p3inv ins0 i k = p3inv ins0 ins0.length k := by
  unfold p3inv
  rcases hg : ins0.get? k with _ | a
  · rfl
  · have hk : k < ins0.length := by
      rcases List.get?_eq_some.mp hg with ⟨h, _⟩
      exact h
    have hO : opener ins0 k < ins0.length :=
      lt_of_le_of_lt (opener_le ins0 k) hk
    simp only [Option.map_some']
    congr 1
    by_cases h1 : a = Instruction.JumpZeroPlaceholder
    · simp [h1]
    · by_cases h2 : a = Instruction.JumpNotZeroPlaceholder
      · simp [h1, h2, if_pos hO, if_pos (lt_of_lt_of_le hO hi)]
      · simp [h1, h2]

theorem p3inv_succ_of_ne {ins0 : List Instruction}
    (hnn : ∀ k, 0 ≤ D ins0 k) (h0 : D ins0 ins0.length = 0) {i k : Nat}
    (hne : k ≠ findMatch ins0 i 0 ∨
      ins0.get? i ≠ some .JumpZeroPlaceholder) :
    p3inv ins0 (i + 1) k = p3inv ins0 i k := by
  unfold p3inv
  rcases hg : ins0.get? k with _ | a
  · rfl
  · simp only [Option.map_some']
    congr 1
    by_cases h1 : a = Instruction.JumpZeroPlaceholder
    · simp [h1]
    · by_cases h2 : a = Instruction.JumpNotZeroPlaceholder
      · subst h2
        by_cases hOi : opener ins0 k < i
        · simp [h1, if_pos hOi, if_pos (by omega : opener ins0 k < i + 1)]
        · have hOi1 : ¬ opener ins0 k < i + 1 := by
            intro hlt
            have heq : opener ins0 k = i := by omega
            obtain ⟨ho1, ho2, ho3⟩ := close_spec hnn h0 hg
            rw [heq] at ho1 ho3
            rcases hne with hne | hne
            · exact hne (by rw [ho3])
            · exact hne ho1
          simp [h1, if_neg hOi, if_neg hOi1]
      · simp [h1, h2]

theorem phase3Go_none {cur : List Instruction} {i : Nat}
    (hg : cur.get? i = none) (fuel : Nat) :
    phase3Go cur (fuel + 1) i = some cur := by
  show (match cur.get? i with
    | none => some cur
    | some a => _) = some cur
  rw [hg]

theorem phase3Go_skip {cur : List Instruction} {i : Nat} {a : Instruction}
    (hg : cur.get? i = some a) (ha : ∀ n, a ≠ Instruction.JumpZero n)
    (fuel : Nat) :
    phase3Go cur (fuel + 1) i = phase3Go cur fuel (i + 1) := by
  show (match cur.get? i with
    | none => some cur
    | some a =>
      match a with
      | Instruction.JumpZero offset =>
        if i + offset = 0 then none
        else
          match cur.get? (i + offset - 1) with
          | none => none
          | some b =>
            if b = Instruction.JumpNotZeroPlaceholder then
              if i + offset - 1 < i + 1 then none
              else
                phase3Go
                  (cur.set (i + offset - 1)
                    (Instruction.JumpNotZero (i + offset - 1 - i - 1)))
                  fuel (i + 1)
            else none
      | _ => phase3Go cur fuel (i + 1)) = _
  rw [hg]
  cases a with
  | JumpZero n => exact absurd rfl (ha n)
  | IncDP n => rfl
  | DecDP n => rfl
  | IncByteAtDP n => rfl
  | DecByteAtDP n => rfl
  | WriteByte n => rfl
  | ReadByte => rfl
  | JumpZeroPlaceholder => rfl
  | JumpNotZero n => rfl
  | JumpNotZeroPlaceholder => rfl

theorem phase3Go_jz {cur : List Instruction} {i off : Nat}
    (hg : cur.get? i = some (Instruction.JumpZero off))
    (hnz : ¬ i + off = 0)
    (hb : cur.get? (i + off - 1) = some Instruction.JumpNotZeroPlaceholder)
    (hge : ¬ i + off - 1 < i + 1) (fuel : Nat) :
    phase3Go cur (fuel + 1) i =
      phase3Go
        (cur.set (i + off - 1)
          (Instruction.JumpNotZero (i + off - 1 - i - 1))) fuel (i + 1) := by
  show (match cur.get? i with
    | none => some cur
    | some a =>
      match a with
      | Instruction.JumpZero offset =>
        if i + offset = 0 then none
        else
          match cur.get? (i + offset - 1) with
          | none => none
          | some b =>
            if b = Instruction.JumpNotZeroPlaceholder then
              if i + offset - 1 < i + 1 then none
              else
                phase3Go
                  (cur.set (i + offset - 1)
                    (Instruction.JumpNotZero (i + offset - 1 - i - 1)))
                  fuel (i + 1)
            else none
      | _ => phase3Go cur fuel (i + 1)) = _
  rw [hg]
  show (if i + off = 0 then none
    else
      match cur.get? (i + off - 1) with
      | none => none
      | some b =>
        if b = Instruction.JumpNotZeroPlaceholder then
          if i + off - 1 < i + 1 then none
          else
            phase3Go
              (cur.set (i + off - 1)
                (Instruction.JumpNotZero (i + off - 1 - i - 1)))
              fuel (i + 1)
        else none) = _
  rw [if_neg hnz, hb]
  show (if (Instruction.JumpNotZeroPlaceholder : Instruction)
        = Instruction.JumpNotZeroPlaceholder then
      if i + off - 1 < i + 1 then none
      else
        phase3Go
          (cur.set (i + off - 1)
            (Instruction.JumpNotZero (i + off - 1 - i - 1)))
          fuel (i + 1)
    else none) = _
  rw [if_pos rfl, if_neg hge]

end BF

namespace BF

theorem phase3Go_pointwise (ins0 : List Instruction)
    (hnn : ∀ k, 0 ≤ D ins0 k) (h0 : D ins0 ins0.length = 0)
    (hnores : ∀ a ∈ ins0, (∀ m, a ≠ .JumpZero m) ∧ (∀ m, a ≠ .JumpNotZero m)) :
    ∀ (fuel i : Nat) (cur : List Instruction),
      cur.length = ins0.length →
      (∀ k, cur.get? k = p3inv ins0 i k) →
      ins0.length - i ≤ fuel →
      ∃ fin, phase3Go cur fuel i = some fin ∧
        ∀ k, fin.get? k = p3inv ins0 ins0.length k := by
  intro fuel
  induction fuel with
  | zero =>
    intro i cur hlen hinv hf
    refine ⟨cur, rfl, fun k => ?_⟩
    rw [hinv k, p3inv_ge_len (by omega) k]
  | succ fuel ih =>
    intro i cur hlen hinv hf
    rcases hg : cur.get? i with _ | a
    · have hilen : cur.length ≤ i := List.get?_eq_none.mp hg
      refine ⟨cur, by rw [phase3Go_none hg], fun k => ?_⟩
      rw [hinv k, p3inv_ge_len (by omega) k]
    · have := hinv i
      rw [hg] at this
      rcases Option.map_eq_some'.mp this.symm with ⟨a0, hins0i, ha0⟩
      by_cases h1 : a0 = Instruction.JumpZeroPlaceholder
      · subst h1
        obtain ⟨j, hfm, hij, hjlen, hja, _, _⟩ := open_spec hnn h0 hins0i
        have hOj : opener ins0 j = i := by
          have := opener_findMatch hnn h0 hins0i
          rw [hfm] at this
          exact this
        have ha : a = Instruction.JumpZero (j - i + 1) := by
          rw [← ha0]
          simp [hfm]
        subst ha
        have harith : i + (j - i + 1) - 1 = j := by omega
        have hcurj : cur.get? j = some Instruction.JumpNotZeroPlaceholder := by
          rw [hinv j]
          unfold p3inv
          rw [hja, hOj]
          simp
        have hstep := @phase3Go_jz cur i (j - i + 1) hg (by omega)
          (by rw [harith]; exact hcurj) (by omega) fuel
        rw [harith] at hstep
        have hinv' : ∀ k,
            (cur.set j (Instruction.JumpNotZero (j - i - 1))).get? k =
              p3inv ins0 (i + 1) k := by
          intro k
          by_cases hkj : k = j
          · have hklen : j < cur.length := by omega
            rw [hkj]
            rw [show (cur.set j (Instruction.JumpNotZero (j - i - 1))).get? j
                = some (Instruction.JumpNotZero (j - i - 1)) from by
              simp [List.get?_set_eq, hklen]]
            unfold p3inv
            rw [hja, hOj]
            simp [if_pos (by omega : i < i + 1)]
          · rw [List.get?_set_ne _ _ (fun h => hkj h.symm), hinv k,
              p3inv_succ_of_ne hnn h0 (Or.inl (by rw [hfm]; exact hkj))]
        obtain ⟨fin, hfin, hfinal⟩ := ih (i + 1)
          (cur.set j (Instruction.JumpNotZero (j - i - 1)))
          (by simp [hlen]) hinv' (by omega)
        exact ⟨fin, by rw [hstep]; exact hfin, hfinal⟩
      · have haa0 : a = a0 ∨ a0 = Instruction.JumpNotZeroPlaceholder := by
          by_cases h2 : a0 = Instruction.JumpNotZeroPlaceholder
          · exact Or.inr h2
          · refine Or.inl ?_
            rw [← ha0]
            simp [h1, h2]
        have hskip : ∀ n, a ≠ Instruction.JumpZero n := by
          rcases haa0 with haa | h2
          · rw [haa]
            exact (hnores a0 (List.get?_mem hins0i)).1
          · subst h2
            obtain ⟨ho1, ho2, ho3⟩ := close_spec hnn h0 hins0i
            rw [← ha0]
            simp [h1, if_pos ho2]
        rw [phase3Go_skip hg hskip fuel]
        refine ih (i + 1) cur hlen ?_ (by omega)
        intro k
        rw [hinv k, p3inv_succ_of_ne hnn h0 (Or.inr (by
          rw [hins0i]
          intro hcontra
          injection hcontra with hcc
          exact h1 hcc))]

end BF

namespace BF

/-- C4: bracket pairing invariant of compiled bytecode.  For every
bracket-balanced source `p`, compilation succeeds, and in the compiled
program every `JumpZero` with offset `f` at index `i` has
`JumpNotZero (f - 2)` at index `i + f - 1` and every `JumpNotZero` with
offset `g` at index `k` has `JumpZero (g + 2)` at index `k - g - 1`;
for the empty loop `[]` this gives `JumpZero 2` paired with
`JumpNotZero 0`. -/
theorem bracket_pairing_invariant (p : List Nat)
    (hbal : balancedB (srcProfile p) = true) :
    ∃ ins, compile p = some ins ∧
      (∀ i f, ins.get? i = some (.JumpZero f) →
        ins.get? (i + f - 1) = some (.JumpNotZero (f - 2))) ∧
      (∀ k g, ins.get? k = some (.JumpNotZero g) →
        ins.get? (k - g - 1) = some (.JumpZero (g + 2))) ∧
      compile [IDENT_JUMP_ZERO, IDENT_JUMP_NOT_ZERO] =
        some [.JumpZero 2, .JumpNotZero 0] := by
  have hins0 : compilePhase1 p = fold1 (filterIdents p) := compilePhase1_spec p
  have hprof : profile (fold1 (filterIdents p)) = srcProfile p :=
    (profile_fold1 (filterIdents p).length (filterIdents p) le_rfl).trans
      (srcProfile_filterIdents p)
  have hbal' : balancedB (profile (fold1 (filterIdents p))) = true := by
    rw [hprof]; exact hbal
  obtain ⟨hnn, h0⟩ := balanced_depth hbal'
  have hnores : ∀ a ∈ fold1 (filterIdents p),
      (∀ m, a ≠ Instruction.JumpZero m) ∧
      (∀ m, a ≠ Instruction.JumpNotZero m) :=
    fold1_not_resolved (filterIdents p).length (filterIdents p) le_rfl
  have hinv0 : ∀ k, (phase2 (fold1 (filterIdents p))).get? k =
      p3inv (fold1 (filterIdents p)) 0 k := by
    intro k
    rw [phase2_pointwise]
    unfold p2target p3inv
    rcases hg : (fold1 (filterIdents p)).get? k with _ | a
    · rfl
    · simp only [Option.map_some']
      congr 1
      by_cases h1 : a = Instruction.JumpZeroPlaceholder
      · simp [h1]
      · by_cases h2 : a = Instruction.JumpNotZeroPlaceholder
        · simp [h1, h2]
        · simp [h1, h2]
  obtain ⟨fin, hfin, hfinal⟩ := phase3Go_pointwise (fold1 (filterIdents p))
    hnn h0 hnores (phase2 (fold1 (filterIdents p))).length 0
    (phase2 (fold1 (filterIdents p))) (phase2_length _) hinv0
    (by rw [phase2_length]; omega)
  have hc : compile p = some fin := by
    unfold compile phase3
    rw [hins0]
    exact hfin
  refine ⟨fin, hc, ?_, ?_, by decide⟩
  · intro i f hif
    rw [hfinal i] at hif
    unfold p3inv at hif
    rcases hg : (fold1 (filterIdents p)).get? i with _ | a0 <;> rw [hg] at hif
    · simp at hif
    · simp only [Option.map_some', Option.some_inj] at hif
      by_cases h1 : a0 = Instruction.JumpZeroPlaceholder
      · rw [if_pos h1] at hif
        subst h1
        obtain ⟨j, hfm, hij, hjlen, hja, _, _⟩ := open_spec hnn h0 hg
        rw [hfm] at hif
        have hf : f = j - i + 1 := by
          injection hif.symm
        have hOj : opener (fold1 (filterIdents p)) j = i := by
          have := opener_findMatch hnn h0 hg
          rw [hfm] at this
          exact this
        rw [hfinal (i + f - 1), show i + f - 1 = j from by omega]
        unfold p3inv
        rw [hja]
        simp only [Option.map_some']
        rw [hOj]
        have hOlen : i < (fold1 (filterIdents p)).length := by omega
        have harith2 : j - i - 1 = f - 2 := by omega
        simp [hOlen, harith2]
      · rw [if_neg h1] at hif
        by_cases h2 : a0 = Instruction.JumpNotZeroPlaceholder
        · rw [if_pos h2] at hif
          by_cases h3 : opener (fold1 (filterIdents p)) i <
              (fold1 (filterIdents p)).length
          · rw [if_pos h3] at hif
            cases hif
          · rw [if_neg h3] at hif
            cases hif
        · rw [if_neg h2] at hif
          exact absurd hif ((hnores a0 (List.get?_mem hg)).1 f)
  · intro k g hkg
    rw [hfinal k] at hkg
    unfold p3inv at hkg
    rcases hg : (fold1 (filterIdents p)).get? k with _ | a0 <;> rw [hg] at hkg
    · simp at hkg
    · simp only [Option.map_some', Option.some_inj] at hkg
      by_cases h1 : a0 = Instruction.JumpZeroPlaceholder
      · rw [if_pos h1] at hkg
        cases hkg
      · rw [if_neg h1] at hkg
        by_cases h2 : a0 = Instruction.JumpNotZeroPlaceholder
        · rw [if_pos h2] at hkg
          subst h2
          obtain ⟨hOopen, hOk, hOfm⟩ := close_spec hnn h0 hg
          have hklen : k < (fold1 (filterIdents p)).length := by
            rcases List.get?_eq_some.mp hg with ⟨h, _⟩
            exact h
          have hOlen : opener (fold1 (filterIdents p)) k <
              (fold1 (filterIdents p)).length :=
            lt_of_le_of_lt (opener_le _ k) hklen
          rw [if_pos hOlen] at hkg
          have hgval : g = k - opener (fold1 (filterIdents p)) k - 1 := by
            injection hkg.symm
          rw [hfinal (k - g - 1),
            show k - g - 1 = opener (fold1 (filterIdents p)) k from by omega]
          unfold p3inv
          rw [hOopen]
          simp only [Option.map_some']
          have harith2 : k - opener (fold1 (filterIdents p)) k + 1 = g + 2 := by
            omega
          simp [hOfm, harith2]
        · rw [if_neg h2] at hkg
          exact absurd hkg ((hnores a0 (List.get?_mem hg)).2 g)

/-- C4, witnessed at the empty loop `[]`. -/
theorem bracket_pairing_invariant_witness :
    balancedB (srcProfile [IDENT_JUMP_ZERO, IDENT_JUMP_NOT_ZERO]) = true ∧
    ∃ ins, compile [IDENT_JUMP_ZERO, IDENT_JUMP_NOT_ZERO] = some ins ∧
      (∀ i f, ins.get? i = some (.JumpZero f) →
        ins.get? (i + f - 1) = some (.JumpNotZero (f - 2))) ∧
      (∀ k g, ins.get? k = some (.JumpNotZero g) →
        ins.get? (k - g - 1) = some (.JumpZero (g + 2))) ∧
      compile [IDENT_JUMP_ZERO, IDENT_JUMP_NOT_ZERO] =
        some [.JumpZero 2, .JumpNotZero 0] :=
  ⟨by decide,
   bracket_pairing_invariant [IDENT_JUMP_ZERO, IDENT_JUMP_NOT_ZERO] (by decide)⟩

end BF
